import Mathlib

/-!
Verification development for the StringVerse simulation engine.

The development shallowly embeds the two physics cores of the repository:

* `src/wasm/src/matrix_physics.rs` — the BFSS-style bosonic matrix model
  (`MatrixSimulation`): three flat `n*n` real matrices with conjugate momenta,
  evolved by a clamped velocity-Verlet scheme driven by nested commutators.
* `src/wasm/src/string_physics.rs` — the string-loop simulation
  (`StringSimulation`): closed discretized loops that vibrate, self-intersect
  and split.

Machine floating point (`f64`) is modelled by exact rationals `ℚ` for the
matrix model (all of whose arithmetic is rational), and by exact reals `ℝ`
for the string simulation (whose seed geometry and arc lengths involve
`cos`, `sin` and square roots).  `js_sys::Math::random()` is an external
uniform source; it is modelled as an explicit stream `ℕ → ℚ` (resp. `ℕ → ℝ`)
that each operation consumes in program order.
-/

namespace StringVerse

/-- `f64::clamp(lo, hi)` over exact rationals: `lo` if the value is below
`lo`, `hi` if above `hi`, the value itself otherwise. -/
def clampQ (v lo hi : ℚ) : ℚ := min (max v lo) hi

theorem clampQ_le (v lo hi : ℚ) : clampQ v lo hi ≤ hi := by
  simp [clampQ]

theorem le_clampQ (v lo hi : ℚ) (h : lo ≤ hi) : lo ≤ clampQ v lo hi := by
  simp [clampQ]
  exact h

/-- Reading an element of a `(List.range m).map f` list. -/
theorem getD_map_range {α : Type} (f : ℕ → α) (m k : ℕ) (d : α) (h : k < m) :
    (((List.range m).map f).getD k d) = f k := by
  rw [List.getD_eq_getElem?_getD]
  rw [List.getElem?_map, List.getElem?_range h]
  rfl

theorem getD_replicate {α : Type} (a d : α) (m k : ℕ) (h : k < m) :
    ((List.replicate m a).getD k d) = a := by
  rw [List.getD_eq_getElem?_getD]
  rw [List.getElem?_replicate]
  simp [h]

/-! ## Matrix model (`matrix_physics.rs`)

State of `MatrixSimulation`: `n`, the three position matrices `x`, the three
momentum matrices `p` (each a flat row-major list of `n*n` rationals), and
the scalars `mass`, `coupling`, `damping`. -/

structure MatrixSimulation where
  n : ℕ
  x : List (List ℚ)
  p : List (List ℚ)
  mass : ℚ
  coupling : ℚ
  damping : ℚ
  deriving Repr

namespace MatrixSimulation

/-- `FORCE_CLAMP`: maximum force magnitude per element. -/
def FORCE_CLAMP : ℚ := 2

/-- `MOM_CLAMP`: maximum momentum per element. -/
def MOM_CLAMP : ℚ := 3

/-- `POS_STEP_CLAMP`: maximum position change per substep. -/
def POS_STEP_CLAMP : ℚ := 3 / 20

/-- Entry `idx` of matrix `i` of a flat-matrix family (out-of-range reads
default to `0`; the source never reads out of range). -/
def ent (m : List (List ℚ)) (i idx : ℕ) : ℚ := (m.getD i []).getD idx 0

/-- `commutator`: `[A, B] = AB - BA` for `n×n` real matrices in flat
row-major storage, entry `(i,j)` computed as the difference of the two
inner-product accumulations of the source. -/
def commutator (a b : List ℚ) (n : ℕ) : List ℚ :=
  (List.range (n * n)).map fun idx =>
    (∑ k in Finset.range n, a.getD (idx / n * n + k) 0 * b.getD (k * n + idx % n) 0) -
    (∑ k in Finset.range n, b.getD (idx / n * n + k) 0 * a.getD (k * n + idx % n) 0)

/-- `MatrixSimulation::compute_forces`: for each `i`, accumulate
`coupling² · [X_j, [X_j, X_i]]` over the two matrices `j ≠ i` (in loop
order), subtract the mass term `mass² · X_i`, and clamp every entry to
`[-FORCE_CLAMP, FORCE_CLAMP]`. -/
def compute_forces (s : MatrixSimulation) : List (List ℚ) :=
  (List.range 3).map fun i =>
    (List.range (s.n * s.n)).map fun idx =>
      clampQ
        ((((List.range 3).filter fun j => j != i).map fun j =>
            s.coupling * s.coupling *
              (commutator (s.x.getD j [])
                (commutator (s.x.getD j []) (s.x.getD i []) s.n) s.n).getD idx 0).sum
          - s.mass * s.mass * ent s.x i idx)
        (-FORCE_CLAMP) FORCE_CLAMP

/-- The per-entry clamped displacement applied by `MatrixSimulation::step`:
`(p[i][idx]*dt + 0.5*forces[i][idx]*dt²).clamp(-POS_STEP_CLAMP, POS_STEP_CLAMP)`. -/
def posDisp (s : MatrixSimulation) (forces : List (List ℚ)) (dt : ℚ) (i idx : ℕ) : ℚ :=
  clampQ (ent s.p i idx * dt + 1 / 2 * ent forces i idx * (dt * dt))
    (-POS_STEP_CLAMP) POS_STEP_CLAMP

/-- Re-symmetrization loop at the end of `MatrixSimulation::step`: every
off-diagonal pair `(a,b)`, `a ≠ b`, is replaced by the average of the two
mirror entries (each pair of entries is read and written only by its own
loop iteration, so the sequential loop acts pointwise). -/
def resym (n : ℕ) (m : List ℚ) : List ℚ :=
  (List.range (n * n)).map fun idx =>
    if idx / n = idx % n then m.getD idx 0
    else 1 / 2 * (m.getD (idx / n * n + idx % n) 0 + m.getD (idx % n * n + idx / n) 0)

/-- Velocity-Verlet position update of `MatrixSimulation::step`: every entry
moves by the clamped displacement `posDisp` computed from the first force
evaluation. -/
def stepX1 (s : MatrixSimulation) (dt : ℚ) : List (List ℚ) :=
  (List.range 3).map fun i =>
    (List.range (s.n * s.n)).map fun idx =>
      ent s.x i idx + posDisp s (compute_forces s) dt i idx

/-- Momentum update of `MatrixSimulation::step`: average of the force before
and after the position update, damped by `1 - damping*dt` and clamped to
`[-MOM_CLAMP, MOM_CLAMP]`. -/
def stepP1 (s : MatrixSimulation) (dt : ℚ) : List (List ℚ) :=
  (List.range 3).map fun i =>
    (List.range (s.n * s.n)).map fun idx =>
      clampQ ((1 - s.damping * dt) *
          (ent s.p i idx +
            1 / 2 * (ent (compute_forces s) i idx +
              ent (compute_forces { s with x := stepX1 s dt }) i idx) * dt))
        (-MOM_CLAMP) MOM_CLAMP

/-- `MatrixSimulation::step(dt)`: compute forces, apply the clamped
velocity-Verlet position update, recompute forces at the new positions,
apply the damped clamped momentum update, then re-symmetrize the position
matrices. -/
def step (s : MatrixSimulation) (dt : ℚ) : MatrixSimulation :=
  { s with
    x := (List.range 3).map fun i => resym s.n ((stepX1 s dt).getD i [])
    p := stepP1 s dt }

/-- Write value `v` into entry `idx` of matrix `i`. -/
def writeEnt (m : List (List ℚ)) (i idx : ℕ) (v : ℚ) : List (List ℚ) :=
  m.set i ((m.getD i []).set idx v)

/-- Write the same value to the two mirror entries `(a,b)` and `(b,a)` of
matrix `i`, as both the constructor and `poke` do. -/
def writePair (n : ℕ) (m : List (List ℚ)) (i a b : ℕ) (v : ℚ) : List (List ℚ) :=
  writeEnt (writeEnt m i (a * n + b) v) i (b * n + a) v

/-- The `(i, a, b)` triples visited by the nested loops
`for i in 0..3 { for a in 0..n { for b in a..n { ... } } }`, in order. -/
def symTriples (n : ℕ) : List (ℕ × ℕ × ℕ) :=
  (List.range 3).flatMap fun i =>
    (List.range n).flatMap fun a =>
      (List.range' a (n - a)).map fun b => (i, a, b)

/-- Constructor initialization loop: each triple `(i,a,b)` draws one value
from the random stream and writes it symmetrically. -/
def initX (n : ℕ) (scale : ℚ) (rnd : ℕ → ℚ) :
    List (ℕ × ℕ × ℕ) → ℕ → List (List ℚ) → List (List ℚ)
  | [], _, m => m
  | (i, a, b) :: rest, k, m =>
      initX n scale rnd rest (k + 1) (writePair n m i a b ((rnd k - 1 / 2) * scale))

/-- `MatrixSimulation::new(n, coupling, mass)`.  The source computes
`scale = 0.1 / (n as f64).sqrt()`; the square root of `n` has no exact
rational counterpart, so it is passed as the argument `sqrtn` (theorems
instantiate it with the exact root when `n` is a perfect square; no claim
depends on its value otherwise).  Momenta start at zero; positions are
initialized symmetrically from the random stream; `damping = 0.08`. -/
def new (n : ℕ) (coupling mass : ℚ) (sqrtn : ℚ) (rnd : ℕ → ℚ) : MatrixSimulation :=
  let scale := 1 / 10 / sqrtn
  { n := n
    x := initX n scale rnd (symTriples n) 0 (List.replicate 3 (List.replicate (n * n) 0))
    p := List.replicate 3 (List.replicate (n * n) 0)
    mass := mass
    coupling := coupling
    damping := 2 / 25 }

/-- `MatrixSimulation::poke(strength)` inner loop: each triple `(i,a,b)`
draws one kick, adds it (clamped) to entry `(a,b)` of momentum matrix `i`
and copies the result to the mirror entry `(b,a)`. -/
def pokeFold (n : ℕ) (strength : ℚ) (rnd : ℕ → ℚ) :
    List (ℕ × ℕ × ℕ) → ℕ → List (List ℚ) → List (List ℚ)
  | [], _, m => m
  | (i, a, b) :: rest, k, m =>
      pokeFold n strength rnd rest (k + 1)
        (writePair n m i a b
          (clampQ (ent m i (a * n + b) + (rnd k - 1 / 2) * strength) (-MOM_CLAMP) MOM_CLAMP))

/-- `MatrixSimulation::poke(strength)`. -/
def poke (s : MatrixSimulation) (strength : ℚ) (rnd : ℕ → ℚ) : MatrixSimulation :=
  { s with p := pokeFold s.n strength rnd (symTriples s.n) 0 s.p }

/-- `MatrixSimulation::set_coupling`. -/
def set_coupling (s : MatrixSimulation) (c : ℚ) : MatrixSimulation := { s with coupling := c }

/-- `MatrixSimulation::set_mass`. -/
def set_mass (s : MatrixSimulation) (m : ℚ) : MatrixSimulation := { s with mass := m }

/-- `MatrixSimulation::get_energy`: kinetic term `0.5·p²` plus mass term
`0.5·mass²·x²` summed over all entries of all three matrices, minus
`0.25·coupling²·Σ entries of [X_i,X_j]²` summed over the unordered pairs
`i < j` — exactly the accumulation loops of the source. -/
def get_energy (s : MatrixSimulation) : ℚ :=
  (∑ i in Finset.range 3, ∑ idx in Finset.range (s.n * s.n),
      1 / 2 * ent s.p i idx * ent s.p i idx) +
  ((∑ i in Finset.range 3, ∑ idx in Finset.range (s.n * s.n),
      1 / 2 * s.mass * s.mass * ent s.x i idx * ent s.x i idx) -
   (∑ i in Finset.range 3, ∑ j in Finset.Ico (i + 1) 3, ∑ idx in Finset.range (s.n * s.n),
      1 / 4 * s.coupling * s.coupling *
        (commutator (s.x.getD i []) (s.x.getD j []) s.n).getD idx 0 *
        (commutator (s.x.getD i []) (s.x.getD j []) s.n).getD idx 0))

/-- Events of the matrix simulation between construction and observation.
Each `poke` carries its own slice of the external random stream. -/
inductive MEvent where
  | step (dt : ℚ)
  | poke (strength : ℚ) (rnd : ℕ → ℚ)
  | setCoupling (c : ℚ)
  | setMass (m : ℚ)

/-- Run a sequence of matrix-simulation events. -/
def runMat (s : MatrixSimulation) : List MEvent → MatrixSimulation
  | [] => s
  | MEvent.step dt :: rest => runMat (s.step dt) rest
  | MEvent.poke st rnd :: rest => runMat (s.poke st rnd) rest
  | MEvent.setCoupling c :: rest => runMat (s.set_coupling c) rest
  | MEvent.setMass m :: rest => runMat (s.set_mass m) rest

/-- Run a sequence of `step` calls only. -/
def runSteps (s : MatrixSimulation) : List ℚ → MatrixSimulation
  | [] => s
  | dt :: rest => runSteps (s.step dt) rest

/-! ### Index and list access lemmas -/

theorem encode_lt {n a b : ℕ} (ha : a < n) (hb : b < n) : a * n + b < n * n := by
  calc a * n + b < a * n + n := by omega
    _ = (a + 1) * n := by ring
    _ ≤ n * n := by
        have : a + 1 ≤ n := ha
        calc (a + 1) * n ≤ n * n := Nat.mul_le_mul_right n this

theorem decode_div {n a b : ℕ} (hb : b < n) : (a * n + b) / n = a := by
  rw [Nat.mul_comm a n, Nat.mul_add_div (by omega)]
  simp [Nat.div_eq_of_lt hb]

theorem decode_mod {n a b : ℕ} (hb : b < n) : (a * n + b) % n = b := by
  rw [Nat.mul_comm a n, Nat.mul_add_mod]
  exact Nat.mod_eq_of_lt hb

theorem getD_set_self {α : Type} (l : List α) (i : ℕ) (h : i < l.length) (v d : α) :
    (l.set i v).getD i d = v := by
  rw [List.getD_eq_getElem?_getD, List.getElem?_set]
  simp [h]

theorem getD_set_ne {α : Type} (l : List α) (i j : ℕ) (h : i ≠ j) (v d : α) :
    (l.set i v).getD j d = l.getD j d := by
  rw [List.getD_eq_getElem?_getD, List.getElem?_set, if_neg h, ← List.getD_eq_getElem?_getD]

/-! ### Well-formedness and symmetry predicates -/

/-- The shape invariant of a family of three flat `n×n` matrices. -/
def WFM (n : ℕ) (m : List (List ℚ)) : Prop :=
  m.length = 3 ∧ ∀ r ∈ m, r.length = n * n

/-- Symmetry of one flat matrix row: mirror entries agree. -/
def SymRow (n : ℕ) (r : List ℚ) : Prop :=
  ∀ a < n, ∀ b < n, r.getD (a * n + b) 0 = r.getD (b * n + a) 0

/-- Antisymmetry of one flat matrix row. -/
def AntiRow (n : ℕ) (r : List ℚ) : Prop :=
  ∀ a < n, ∀ b < n, r.getD (a * n + b) 0 = -r.getD (b * n + a) 0

/-- Symmetry of all three matrices of a family. -/
def SymFam (n : ℕ) (m : List (List ℚ)) : Prop :=
  ∀ i < 3, SymRow n (m.getD i [])

theorem WFM_row_length {n : ℕ} {m : List (List ℚ)} (h : WFM n m) {i : ℕ} (hi : i < 3) :
    (m.getD i []).length = n * n := by
  obtain ⟨h3, hr⟩ := h
  apply hr
  rw [List.getD_eq_getElem?_getD]
  have hlt : i < m.length := by omega
  rw [List.getElem?_eq_getElem hlt]
  exact List.getElem_mem hlt

/-! ### Commutator entry formula and symmetry transfer -/

theorem commutator_entry (a b : List ℚ) {n i j : ℕ} (hi : i < n) (hj : j < n) :
    (commutator a b n).getD (i * n + j) 0 =
      (∑ k in Finset.range n, a.getD (i * n + k) 0 * b.getD (k * n + j) 0) -
      (∑ k in Finset.range n, b.getD (i * n + k) 0 * a.getD (k * n + j) 0) := by
  rw [commutator, getD_map_range _ _ _ _ (encode_lt hi hj), decode_div hj, decode_mod hj]

theorem commutator_anti {A B : List ℚ} {n : ℕ} (hA : SymRow n A) (hB : SymRow n B) :
    AntiRow n (commutator A B n) := by
  intro a ha b hb
  rw [commutator_entry A B ha hb, commutator_entry A B hb ha]
  have h1 : ∀ k ∈ Finset.range n,
      A.getD (b * n + k) 0 * B.getD (k * n + a) 0 =
      B.getD (a * n + k) 0 * A.getD (k * n + b) 0 := by
    intro k hk
    rw [Finset.mem_range] at hk
    rw [hA b hb k hk, hB k hk a ha]
    ring
  have h2 : ∀ k ∈ Finset.range n,
      B.getD (b * n + k) 0 * A.getD (k * n + a) 0 =
      A.getD (a * n + k) 0 * B.getD (k * n + b) 0 := by
    intro k hk
    rw [Finset.mem_range] at hk
    rw [hB b hb k hk, hA k hk a ha]
    ring
  rw [Finset.sum_congr rfl h1, Finset.sum_congr rfl h2]
  ring

theorem commutator_sym {A C : List ℚ} {n : ℕ} (hA : SymRow n A) (hC : AntiRow n C) :
    SymRow n (commutator A C n) := by
  intro a ha b hb
  rw [commutator_entry A C ha hb, commutator_entry A C hb ha]
  have h1 : ∀ k ∈ Finset.range n,
      A.getD (a * n + k) 0 * C.getD (k * n + b) 0 =
      -(C.getD (b * n + k) 0 * A.getD (k * n + a) 0) := by
    intro k hk
    rw [Finset.mem_range] at hk
    rw [hA a ha k hk, hC b hb k hk]
    ring
  have h2 : ∀ k ∈ Finset.range n,
      C.getD (a * n + k) 0 * A.getD (k * n + b) 0 =
      -(A.getD (b * n + k) 0 * C.getD (k * n + a) 0) := by
    intro k hk
    rw [Finset.mem_range] at hk
    rw [hA k hk b hb, hC k hk a ha]
    ring
  rw [Finset.sum_congr rfl h1, Finset.sum_congr rfl h2,
    Finset.sum_neg_distrib, Finset.sum_neg_distrib]
  ring

/-! ### Symmetry of the force computation and the step -/

theorem ent_def (m : List (List ℚ)) (i idx : ℕ) : ent m i idx = (m.getD i []).getD idx 0 := rfl

theorem ent_grid (g : ℕ → ℕ → ℚ) {i idx : ℕ} (hi : i < 3) {m : ℕ} (hidx : idx < m) :
    ent ((List.range 3).map fun i => (List.range m).map fun idx => g i idx) i idx = g i idx := by
  rw [ent, getD_map_range _ _ _ _ hi, getD_map_range _ _ _ _ hidx]

theorem ent_compute_forces (s : MatrixSimulation) {i idx : ℕ} (hi : i < 3)
    (hidx : idx < s.n * s.n) :
    ent (compute_forces s) i idx =
      clampQ
        ((((List.range 3).filter fun j => j != i).map fun j =>
            s.coupling * s.coupling *
              (commutator (s.x.getD j [])
                (commutator (s.x.getD j []) (s.x.getD i []) s.n) s.n).getD idx 0).sum
          - s.mass * s.mass * ent s.x i idx)
        (-FORCE_CLAMP) FORCE_CLAMP := by
  rw [ent, compute_forces, getD_map_range _ _ _ _ hi, getD_map_range _ _ _ _ hidx]

theorem compute_forces_sym (s : MatrixSimulation) (hx : SymFam s.n s.x) :
    SymFam s.n (compute_forces s) := by
  intro i hi a ha b hb
  rw [← ent_def, ← ent_def,
    ent_compute_forces s hi (encode_lt ha hb),
    ent_compute_forces s hi (encode_lt hb ha)]
  have hdc : ∀ j < 3,
      (commutator (s.x.getD j [])
        (commutator (s.x.getD j []) (s.x.getD i []) s.n) s.n).getD (a * s.n + b) 0 =
      (commutator (s.x.getD j [])
        (commutator (s.x.getD j []) (s.x.getD i []) s.n) s.n).getD (b * s.n + a) 0 := by
    intro j hj
    exact commutator_sym (hx j hj) (commutator_anti (hx j hj) (hx i hi)) a ha b hb
  have hmap : (((List.range 3).filter fun j => j != i).map fun j =>
      s.coupling * s.coupling *
        (commutator (s.x.getD j [])
          (commutator (s.x.getD j []) (s.x.getD i []) s.n) s.n).getD (a * s.n + b) 0) =
      (((List.range 3).filter fun j => j != i).map fun j =>
      s.coupling * s.coupling *
        (commutator (s.x.getD j [])
          (commutator (s.x.getD j []) (s.x.getD i []) s.n) s.n).getD (b * s.n + a) 0) := by
    apply List.map_congr_left
    intro j hj
    have hj3 : j < 3 := by
      have := List.of_mem_filter hj
      have hjr := List.mem_range.mp (List.mem_of_mem_filter hj)
      exact hjr
    rw [hdc j hj3]
  rw [hmap, ent_def, ent_def, hx i hi a ha b hb]

theorem ent_sym_of_symFam {n : ℕ} {m : List (List ℚ)} (h : SymFam n m) {i a b : ℕ}
    (hi : i < 3) (ha : a < n) (hb : b < n) :
    ent m i (a * n + b) = ent m i (b * n + a) := h i hi a ha b hb

theorem stepX1_sym (s : MatrixSimulation) (hx : SymFam s.n s.x) (hp : SymFam s.n s.p)
    (dt : ℚ) : SymFam s.n (stepX1 s dt) := by
  intro i hi a ha b hb
  rw [← ent_def, ← ent_def, stepX1,
    ent_grid _ hi (encode_lt ha hb), ent_grid _ hi (encode_lt hb ha),
    posDisp, posDisp,
    ent_sym_of_symFam hx hi ha hb, ent_sym_of_symFam hp hi ha hb,
    ent_sym_of_symFam (compute_forces_sym s hx) hi ha hb]

theorem stepP1_sym (s : MatrixSimulation) (hx : SymFam s.n s.x) (hp : SymFam s.n s.p)
    (dt : ℚ) : SymFam s.n (stepP1 s dt) := by
  intro i hi a ha b hb
  rw [← ent_def, ← ent_def, stepP1,
    ent_grid _ hi (encode_lt ha hb), ent_grid _ hi (encode_lt hb ha),
    ent_sym_of_symFam hp hi ha hb,
    ent_sym_of_symFam (compute_forces_sym s hx) hi ha hb,
    ent_sym_of_symFam
      (compute_forces_sym { s with x := stepX1 s dt } (stepX1_sym s hx hp dt)) hi ha hb]

theorem resym_symRow (n : ℕ) (m : List ℚ) : SymRow n (resym n m) := by
  intro a ha b hb
  rw [resym, getD_map_range _ _ _ _ (encode_lt ha hb),
    getD_map_range _ _ _ _ (encode_lt hb ha),
    decode_div hb, decode_mod hb, decode_div ha, decode_mod ha]
  by_cases hab : a = b
  · subst hab
    simp
  · rw [if_neg hab, if_neg fun h => hab h.symm]
    ring

theorem step_x_sym (s : MatrixSimulation) (dt : ℚ) : SymFam s.n (step s dt).x := by
  intro i hi
  rw [step]
  have : ((List.range 3).map fun i => resym s.n ((stepX1 s dt).getD i [])).getD i [] =
      resym s.n ((stepX1 s dt).getD i []) := getD_map_range _ _ _ _ hi
  rw [this]
  exact resym_symRow s.n _

theorem step_p_sym (s : MatrixSimulation) (hx : SymFam s.n s.x) (hp : SymFam s.n s.p)
    (dt : ℚ) : SymFam s.n (step s dt).p := by
  rw [step]
  exact stepP1_sym s hx hp dt

/-! ### Symmetry of the paired writes of the constructor and `poke` -/

theorem encode_inj {n a b c d : ℕ} (hb : b < n) (hd : d < n)
    (h : a * n + b = c * n + d) : a = c ∧ b = d := by
  have h1 : (a * n + b) / n = (c * n + d) / n := by rw [h]
  rw [decode_div hb, decode_div hd] at h1
  subst h1
  omega

theorem writePair_getD_other {n : ℕ} (m : List (List ℚ)) {i i' : ℕ} (a b : ℕ) (v : ℚ)
    (h : i' ≠ i) : (writePair n m i a b v).getD i' [] = m.getD i' [] := by
  rw [writePair, writeEnt, writeEnt, getD_set_ne _ _ _ (fun h2 => h h2.symm),
    getD_set_ne _ _ _ (fun h2 => h h2.symm)]

theorem writePair_row {n : ℕ} (m : List (List ℚ)) (i a b : ℕ) (v : ℚ)
    (hi : i < m.length) :
    (writePair n m i a b v).getD i [] = ((m.getD i []).set (a * n + b) v).set (b * n + a) v := by
  rw [writePair, writeEnt, writeEnt]
  have hlen : i < (m.set i ((m.getD i []).set (a * n + b) v)).length := by
    rw [List.length_set]; exact hi
  rw [getD_set_self _ _ hlen]
  congr 1
  rw [getD_set_self _ _ hi]

theorem getD_set_set (r : List ℚ) {i1 i2 : ℕ} (idx : ℕ) (h1 : i1 < r.length)
    (h2 : i2 < r.length) (v : ℚ) :
    ((r.set i1 v).set i2 v).getD idx 0 =
      if idx = i2 then v else if idx = i1 then v else r.getD idx 0 := by
  by_cases e2 : idx = i2
  · subst e2
    rw [if_pos rfl, getD_set_self _ _ (by rw [List.length_set]; exact h2)]
  · rw [if_neg e2, getD_set_ne _ _ _ fun h => e2 h.symm]
    by_cases e1 : idx = i1
    · subst e1
      rw [if_pos rfl, getD_set_self _ _ h1]
    · rw [if_neg e1, getD_set_ne _ _ _ fun h => e1 h.symm]

theorem writePair_symRow {n : ℕ} {r : List ℚ} (hr : SymRow n r) (hlen : r.length = n * n)
    {a b : ℕ} (ha : a < n) (hb : b < n) (v : ℚ) :
    SymRow n ((r.set (a * n + b) v).set (b * n + a) v) := by
  intro p hp q hq
  have hab : a * n + b < r.length := by rw [hlen]; exact encode_lt ha hb
  have hba : b * n + a < r.length := by rw [hlen]; exact encode_lt hb ha
  rw [getD_set_set r _ hab hba v, getD_set_set r _ hab hba v]
  by_cases c1 : p * n + q = b * n + a
  · obtain ⟨hpb, hqa⟩ := encode_inj hq ha c1
    rw [if_pos c1, hpb, hqa]
    by_cases c2 : a * n + b = b * n + a
    · simp [c2]
    · simp [c2]
  · rw [if_neg c1]
    by_cases c2 : p * n + q = a * n + b
    · obtain ⟨hpa, hqb⟩ := encode_inj hq hb c2
      rw [if_pos c2, hpa, hqb]
      simp
    · have d1 : q * n + p ≠ b * n + a := by
        intro h
        obtain ⟨h5, h6⟩ := encode_inj hp ha h
        exact c2 (by rw [h5, h6])
      have d2 : q * n + p ≠ a * n + b := by
        intro h
        obtain ⟨h5, h6⟩ := encode_inj hp hb h
        exact c1 (by rw [h5, h6])
      rw [if_neg c2, if_neg d1, if_neg d2]
      exact hr p hp q hq

theorem symTriples_bounds {n : ℕ} {t : ℕ × ℕ × ℕ} (ht : t ∈ symTriples n) :
    t.1 < 3 ∧ t.2.1 < n ∧ t.2.2 < n := by
  rw [symTriples] at ht
  simp only [List.mem_flatMap, List.mem_map, List.mem_range, List.mem_range'] at ht
  obtain ⟨i, hi, a, ha, b, hb, rfl⟩ := ht
  obtain ⟨k, hk, rfl⟩ := hb
  refine ⟨hi, ha, ?_⟩
  simp only
  omega

theorem getD_mem {α : Type} {m : List α} {i : ℕ} (hi : i < m.length) (d : α) :
    m.getD i d ∈ m := by
  rw [List.getD_eq_getElem?_getD, List.getElem?_eq_getElem hi]
  exact List.getElem_mem hi

theorem WFM_writePair {n : ℕ} {m : List (List ℚ)} (h : WFM n m) {i : ℕ} (hi3 : i < 3)
    (a b : ℕ) (v : ℚ) : WFM n (writePair n m i a b v) := by
  obtain ⟨h3, hr⟩ := h
  have him : i < m.length := by omega
  have hrow : (m.getD i []).length = n * n := hr _ (getD_mem him [])
  constructor
  · rw [writePair, writeEnt, writeEnt, List.length_set, List.length_set]
    exact h3
  · intro r hmem
    rw [writePair, writeEnt, writeEnt] at hmem
    rcases List.mem_or_eq_of_mem_set hmem with hmem1 | rfl
    · rcases List.mem_or_eq_of_mem_set hmem1 with hmem2 | rfl
      · exact hr r hmem2
      · rw [List.length_set]
        exact hrow
    · rw [List.length_set, getD_set_self _ _ him, List.length_set]
      exact hrow

theorem symFam_writePair {n : ℕ} {m : List (List ℚ)} (hsym : SymFam n m) (hwf : WFM n m)
    {i a b : ℕ} (hi3 : i < 3) (ha : a < n) (hb : b < n) (v : ℚ) :
    SymFam n (writePair n m i a b v) := by
  intro i' hi'
  have hlen3 := hwf.1
  by_cases hii : i' = i
  · subst hii
    rw [writePair_row _ _ _ _ _ (by omega : i' < m.length)]
    exact writePair_symRow (hsym i' hi') (WFM_row_length hwf hi') ha hb v
  · rw [writePair_getD_other _ _ _ _ hii]
    exact hsym i' hi'

/-! ### The step, constructor and poke preserve shape and symmetry -/

/-- The joint invariant of the matrix model: both matrix families have the
right shape and are entrywise symmetric. -/
def Inv (s : MatrixSimulation) : Prop :=
  WFM s.n s.x ∧ SymFam s.n s.x ∧ WFM s.n s.p ∧ SymFam s.n s.p

theorem initX_inv (n : ℕ) (scale : ℚ) (rnd : ℕ → ℚ) :
    ∀ (l : List (ℕ × ℕ × ℕ)) (k : ℕ) (m : List (List ℚ)),
      (∀ t ∈ l, t.1 < 3 ∧ t.2.1 < n ∧ t.2.2 < n) → WFM n m → SymFam n m →
      WFM n (initX n scale rnd l k m) ∧ SymFam n (initX n scale rnd l k m)
  | [], k, m, _, hwf, hsym => ⟨hwf, hsym⟩
  | (i, a, b) :: rest, k, m, hb, hwf, hsym => by
      obtain ⟨hi3, ha, hbn⟩ := hb (i, a, b) (List.mem_cons_self _ _)
      rw [initX]
      exact initX_inv n scale rnd rest (k + 1) _ (fun t ht => hb t (List.mem_cons_of_mem _ ht))
        (WFM_writePair hwf hi3 a b _) (symFam_writePair hsym hwf hi3 ha hbn _)

theorem pokeFold_inv (n : ℕ) (strength : ℚ) (rnd : ℕ → ℚ) :
    ∀ (l : List (ℕ × ℕ × ℕ)) (k : ℕ) (m : List (List ℚ)),
      (∀ t ∈ l, t.1 < 3 ∧ t.2.1 < n ∧ t.2.2 < n) → WFM n m → SymFam n m →
      WFM n (pokeFold n strength rnd l k m) ∧ SymFam n (pokeFold n strength rnd l k m)
  | [], k, m, _, hwf, hsym => ⟨hwf, hsym⟩
  | (i, a, b) :: rest, k, m, hb, hwf, hsym => by
      obtain ⟨hi3, ha, hbn⟩ := hb (i, a, b) (List.mem_cons_self _ _)
      rw [pokeFold]
      exact pokeFold_inv n strength rnd rest (k + 1) _
        (fun t ht => hb t (List.mem_cons_of_mem _ ht))
        (WFM_writePair hwf hi3 a b _) (symFam_writePair hsym hwf hi3 ha hbn _)

theorem WFM_zeros (n : ℕ) : WFM n (List.replicate 3 (List.replicate (n * n) 0)) := by
  constructor
  · rw [List.length_replicate]
  · intro r hr
    rw [List.eq_of_mem_replicate hr, List.length_replicate]

theorem symFam_zeros (n : ℕ) : SymFam n (List.replicate 3 (List.replicate (n * n) 0)) := by
  intro i hi a ha b hb
  rw [getD_replicate _ _ _ _ (by omega),
    getD_replicate _ _ _ _ (encode_lt ha hb), getD_replicate _ _ _ _ (encode_lt hb ha)]

theorem new_inv (n : ℕ) (coupling mass sqrtn : ℚ) (rnd : ℕ → ℚ) :
    Inv (new n coupling mass sqrtn rnd) := by
  rw [Inv, new]
  obtain ⟨hwf, hsym⟩ := initX_inv n (1 / 10 / sqrtn) rnd (symTriples n) 0
    (List.replicate 3 (List.replicate (n * n) 0))
    (fun t ht => symTriples_bounds ht) (WFM_zeros n) (symFam_zeros n)
  exact ⟨hwf, hsym, WFM_zeros n, symFam_zeros n⟩

theorem WFM_grid (n : ℕ) (g : ℕ → ℕ → ℚ) :
    WFM n ((List.range 3).map fun i => (List.range (n * n)).map fun idx => g i idx) := by
  constructor
  · rw [List.length_map, List.length_range]
  · intro r hr
    obtain ⟨i, _, rfl⟩ := List.mem_map.mp hr
    rw [List.length_map, List.length_range]

theorem WFM_step_x (s : MatrixSimulation) (dt : ℚ) : WFM s.n (step s dt).x := by
  rw [step]
  constructor
  · rw [List.length_map, List.length_range]
  · intro r hr
    obtain ⟨i, _, rfl⟩ := List.mem_map.mp hr
    rw [resym, List.length_map, List.length_range]

theorem WFM_step_p (s : MatrixSimulation) (dt : ℚ) : WFM s.n (step s dt).p := by
  rw [step]
  exact WFM_grid s.n _

theorem step_inv {s : MatrixSimulation} (h : Inv s) (dt : ℚ) : Inv (step s dt) := by
  obtain ⟨hwx, hsx, hwp, hsp⟩ := h
  exact ⟨WFM_step_x s dt, step_x_sym s dt, WFM_step_p s dt, step_p_sym s hsx hsp dt⟩

theorem poke_inv {s : MatrixSimulation} (h : Inv s) (strength : ℚ) (rnd : ℕ → ℚ) :
    Inv (poke s strength rnd) := by
  obtain ⟨hwx, hsx, hwp, hsp⟩ := h
  obtain ⟨hwp2, hsp2⟩ := pokeFold_inv s.n strength rnd (symTriples s.n) 0 s.p
    (fun t ht => symTriples_bounds ht) hwp hsp
  exact ⟨hwx, hsx, hwp2, hsp2⟩

theorem runMat_inv {s : MatrixSimulation} (h : Inv s) :
    ∀ events : List MEvent, Inv (runMat s events) := by
  intro events
  induction events generalizing s with
  | nil => exact h
  | cons e rest ih =>
      cases e with
      | step dt => exact ih (step_inv h dt)
      | poke st rnd => exact ih (poke_inv h st rnd)
      | setCoupling c => exact ih h
      | setMass m => exact ih h

theorem step_n (s : MatrixSimulation) (dt : ℚ) : (step s dt).n = s.n := rfl

theorem runMat_n (s : MatrixSimulation) :
    ∀ events : List MEvent, (runMat s events).n = s.n := by
  intro events
  induction events generalizing s with
  | nil => rfl
  | cons e rest ih =>
      cases e with
      | step dt => exact (ih (s.step dt)).trans rfl
      | poke st rnd => exact (ih (s.poke st rnd)).trans rfl
      | setCoupling c => exact (ih (s.set_coupling c)).trans rfl
      | setMass m => exact (ih (s.set_mass m)).trans rfl

/-! ### Entry bounds -/

theorem ent_grid_cases (g : ℕ → ℕ → ℚ) (m : ℕ) (i idx : ℕ) :
    ent ((List.range 3).map fun i => (List.range m).map fun idx => g i idx) i idx = g i idx ∨
    ent ((List.range 3).map fun i => (List.range m).map fun idx => g i idx) i idx = 0 := by
  by_cases hi : i < 3
  · by_cases hidx : idx < m
    · exact Or.inl (ent_grid g hi hidx)
    · refine Or.inr ?_
      rw [ent, getD_map_range _ _ _ _ hi, List.getD_eq_default]
      rw [List.length_map, List.length_range]
      omega
  · refine Or.inr ?_
    have h0 : ((List.range 3).map fun i => (List.range m).map fun idx => g i idx).getD i [] = [] :=
      List.getD_eq_default _ _ (by rw [List.length_map, List.length_range]; omega)
    rw [ent, h0]
    simp

theorem ent_zeros (n i idx : ℕ) :
    ent (List.replicate 3 (List.replicate (n * n) 0)) i idx = 0 := by
  by_cases hi : i < 3
  · rw [ent, getD_replicate _ _ _ _ hi]
    by_cases hidx : idx < n * n
    · rw [getD_replicate _ _ _ _ hidx]
    · rw [List.getD_eq_default]
      rw [List.length_replicate]
      omega
  · have h0 : (List.replicate 3 (List.replicate (n * n) (0:Rat))).getD i [] = [] :=
      List.getD_eq_default _ _ (by rw [List.length_replicate]; omega)
    rw [ent, h0]
    simp

theorem forces_bounded (s : MatrixSimulation) (i idx : ℕ) :
    -FORCE_CLAMP ≤ ent (compute_forces s) i idx ∧ ent (compute_forces s) i idx ≤ FORCE_CLAMP := by
  rcases ent_grid_cases _ (s.n * s.n) i idx with h | h <;>
    rw [compute_forces] at * <;> rw [h]
  · exact ⟨le_clampQ _ _ _ (by rw [FORCE_CLAMP]; norm_num), clampQ_le _ _ _⟩
  · rw [FORCE_CLAMP]
    norm_num

theorem posDisp_bounded (s : MatrixSimulation) (forces : List (List ℚ)) (dt : ℚ) (i idx : ℕ) :
    -POS_STEP_CLAMP ≤ posDisp s forces dt i idx ∧
    posDisp s forces dt i idx ≤ POS_STEP_CLAMP := by
  exact ⟨le_clampQ _ _ _ (by rw [POS_STEP_CLAMP]; norm_num), clampQ_le _ _ _⟩

theorem step_p_bounded (s : MatrixSimulation) (dt : ℚ) (i idx : ℕ) :
    -MOM_CLAMP ≤ ent (step s dt).p i idx ∧ ent (step s dt).p i idx ≤ MOM_CLAMP := by
  rw [step]
  rcases ent_grid_cases _ (s.n * s.n) i idx with h | h <;>
    rw [stepP1] at * <;> rw [h]
  · exact ⟨le_clampQ _ _ _ (by rw [MOM_CLAMP]; norm_num), clampQ_le _ _ _⟩
  · rw [MOM_CLAMP]
    norm_num

theorem runSteps_p_bounded (dts : List ℚ) :
    ∀ s : MatrixSimulation,
      (∀ i idx, -MOM_CLAMP ≤ ent s.p i idx ∧ ent s.p i idx ≤ MOM_CLAMP) →
      ∀ i idx, -MOM_CLAMP ≤ ent (runSteps s dts).p i idx ∧
        ent (runSteps s dts).p i idx ≤ MOM_CLAMP := by
  induction dts with
  | nil => exact fun s h => h
  | cons dt rest ih =>
      intro s _ i idx
      exact ih (s.step dt) (fun i idx => step_p_bounded s dt i idx) i idx

end MatrixSimulation

namespace MatrixClaims

open MatrixSimulation

/-- C6: for every `n ≥ 1`, after construction and after every `step(dt)`
call (and, more generally, after any sequence of steps, pokes and parameter
changes), each matrix `Xᵢ` is exactly symmetric: `Xᵢ[a][b] = Xᵢ[b][a]` for
every `i < 3` and all indices `a, b < n`. -/
theorem C6_x_symmetry (n : ℕ) (_hn : 1 ≤ n) (coupling mass sqrtn : ℚ) (rnd : ℕ → ℚ)
    (events : List MEvent) :
    ∀ i < 3, ∀ a < n, ∀ b < n,
      ent (runMat (new n coupling mass sqrtn rnd) events).x i (a * n + b) =
      ent (runMat (new n coupling mass sqrtn rnd) events).x i (b * n + a) := by
  intro i hi a ha b hb
  have hinv := runMat_inv (new_inv n coupling mass sqrtn rnd) events
  have hnn := runMat_n (new n coupling mass sqrtn rnd) events
  have hsym := hinv.2.1 i hi
  rw [ent_def, ent_def]
  have ha' : a < (runMat (new n coupling mass sqrtn rnd) events).n := by rw [hnn]; exact ha
  have hb' : b < (runMat (new n coupling mass sqrtn rnd) events).n := by rw [hnn]; exact hb
  have := hsym a ha' b hb'
  rw [hnn] at this
  exact this

theorem C6_x_symmetry_witness :
    1 ≤ 2 ∧
    ent (runMat (new 2 1 1 1 fun _ => 1) [MEvent.step 1]).x 0 (0 * 2 + 1) =
      ent (runMat (new 2 1 1 1 fun _ => 1) [MEvent.step 1]).x 0 (1 * 2 + 0) :=
  ⟨by decide,
   C6_x_symmetry 2 (by decide) 1 1 1 (fun _ => 1) [MEvent.step 1] 0 (by decide)
     0 (by decide) 1 (by decide)⟩

/-- C10: the momentum matrices `Pᵢ` are exactly symmetric at construction
and after every `step(dt)` and every `poke(strength)` call (stated over
arbitrary event sequences, which also include parameter changes). -/
theorem C10_p_symmetry (n : ℕ) (coupling mass sqrtn : ℚ) (rnd : ℕ → ℚ)
    (events : List MEvent) :
    ∀ i < 3, ∀ a < n, ∀ b < n,
      ent (runMat (new n coupling mass sqrtn rnd) events).p i (a * n + b) =
      ent (runMat (new n coupling mass sqrtn rnd) events).p i (b * n + a) := by
  intro i hi a ha b hb
  have hinv := runMat_inv (new_inv n coupling mass sqrtn rnd) events
  have hnn := runMat_n (new n coupling mass sqrtn rnd) events
  have hsym := hinv.2.2.2 i hi
  rw [ent_def, ent_def]
  have ha' : a < (runMat (new n coupling mass sqrtn rnd) events).n := by rw [hnn]; exact ha
  have hb' : b < (runMat (new n coupling mass sqrtn rnd) events).n := by rw [hnn]; exact hb
  have := hsym a ha' b hb'
  rw [hnn] at this
  exact this

theorem C10_p_symmetry_witness :
    ent (runMat (new 2 1 1 1 fun _ => 1) [MEvent.poke 1 fun _ => 1]).p 0 (0 * 2 + 1) =
      ent (runMat (new 2 1 1 1 fun _ => 1) [MEvent.poke 1 fun _ => 1]).p 0 (1 * 2 + 0) :=
  C10_p_symmetry 2 1 1 1 (fun _ => 1) [MEvent.poke 1 fun _ => 1] 0 (by decide)
    0 (by decide) 1 (by decide)

/-- C2 (amended): along any run of `step(dt)` calls from construction,
every force entry computed lies in `[-2, 2]`, every applied per-substep
displacement lies in `[-0.15, 0.15]`, and every momentum entry lies in
`[-3, 3]`.  (The matrix entries themselves have no clamp range: only their
per-step displacement is clamped, and `C2_counterexample` drives an entry
of `X` above every declared bound.) -/
theorem C2_clamp_bounds :
    (∀ s : MatrixSimulation, ∀ i idx,
      -2 ≤ ent (compute_forces s) i idx ∧ ent (compute_forces s) i idx ≤ 2) ∧
    (∀ (s : MatrixSimulation) (forces : List (List ℚ)) (dt : ℚ) (i idx : ℕ),
      -(3 / 20) ≤ posDisp s forces dt i idx ∧ posDisp s forces dt i idx ≤ 3 / 20) ∧
    (∀ (n : ℕ) (coupling mass sqrtn : ℚ) (rnd : ℕ → ℚ) (dts : List ℚ) (i idx : ℕ),
      -3 ≤ ent (runSteps (new n coupling mass sqrtn rnd) dts).p i idx ∧
      ent (runSteps (new n coupling mass sqrtn rnd) dts).p i idx ≤ 3) := by
  refine ⟨fun s i idx => forces_bounded s i idx,
    fun s forces dt i idx => posDisp_bounded s forces dt i idx,
    fun n coupling mass sqrtn rnd dts i idx => ?_⟩
  apply runSteps_p_bounded dts (new n coupling mass sqrtn rnd)
  intro i idx
  have hz : (new n coupling mass sqrtn rnd).p = List.replicate 3 (List.replicate (n * n) 0) :=
    rfl
  rw [hz, ent_zeros, MOM_CLAMP]
  norm_num

set_option maxRecDepth 1000000 in
/-- C2 counterexample: with `n = 1`, `coupling = 1`, `mass = 10`, seed draw
`9/20` (so `X` starts at `-1/200`), the explicit sequence of positive time
steps below drives the single entry of `X₀` above `3`, so the `X` matrices
do not stay inside any of the declared clamp ranges `[-2,2]`, `[-3,3]`,
`[-0.15,0.15]`. -/
theorem C2_counterexample :
    3 < ent (runSteps (new 1 1 10 1 fun _ => 9 / 20)
      ([26] ++ List.replicate 19 (1 / 20) ++ [26] ++ List.replicate 11 (1 / 20))).x 0 0 := by
  with_unfolding_all decide

/-- C4 (amended): constructing the matrix model with `n = 0` is not
rejected: the constructor is total and returns an empty, inert simulation on
which `step` is the identity and `get_energy` is `0`; no domain error exists
and no undefined indexing occurs. -/
theorem C4_new_zero_total (coupling mass sqrtn : ℚ) (rnd : ℕ → ℚ) (dts : List ℚ) :
    runSteps (new 0 coupling mass sqrtn rnd) dts = new 0 coupling mass sqrtn rnd ∧
    get_energy (new 0 coupling mass sqrtn rnd) = 0 := by
  constructor
  · induction dts with
    | nil => rfl
    | cons dt rest ih =>
        have hfix : step (new 0 coupling mass sqrtn rnd) dt = new 0 coupling mass sqrtn rnd :=
          rfl
        rw [runSteps, hfix]
        exact ih
  · simp [get_energy, show (new 0 coupling mass sqrtn rnd).n = 0 from rfl]

/-- C4 counterexample: the concrete construction `new(0, 1.0, 1.0)`
succeeds: it returns a well-formed state with `n = 0` and empty matrices,
its first step leaves it unchanged and its energy is `0` — no
construction-time domain error is raised, contradicting the claim that
construction fails for `n = 0`. -/
theorem C4_counterexample :
    (new 0 1 1 0 fun _ => 1 / 2).n = 0 ∧
    (new 0 1 1 0 fun _ => 1 / 2).x = [[], [], []] ∧
    step (new 0 1 1 0 fun _ => 1 / 2) 1 = new 0 1 1 0 (fun _ => 1 / 2) ∧
    get_energy (new 0 1 1 0 fun _ => 1 / 2) = 0 := by
  refine ⟨rfl, rfl, rfl, ?_⟩
  with_unfolding_all decide

theorem filter_sum_range3 (f : ℕ → ℚ) (i : ℕ) (hi : i < 3) :
    (((List.range 3).filter fun j => j != i).map f).sum =
      Finset.sum ((Finset.range 3).filter (fun j => j ≠ i)) f := by
  interval_cases i <;>
    simp [Finset.sum_filter, Finset.sum_range_succ, List.range_succ]

/-- The force formula of the claim for C9:
`Fᵢ = coupling² · Σ_{j≠i} [Xⱼ,[Xⱼ,Xᵢ]] − mass² · Xᵢ`, every entry clamped to
`[-2, 2]`. -/
def forceSpec (s : MatrixSimulation) (i idx : ℕ) : ℚ :=
  clampQ
    ((Finset.sum ((Finset.range 3).filter (fun j => j ≠ i)) fun j =>
        s.coupling ^ 2 *
          (commutator (s.x.getD j [])
            (commutator (s.x.getD j []) (s.x.getD i []) s.n) s.n).getD idx 0)
      - s.mass ^ 2 * ent s.x i idx)
    (-2) 2

theorem forces_eq_spec (s : MatrixSimulation) {i idx : ℕ} (hi : i < 3)
    (hidx : idx < s.n * s.n) : ent (compute_forces s) i idx = forceSpec s i idx := by
  rw [ent_compute_forces s hi hidx, forceSpec, pow_two, pow_two,
    filter_sum_range3 _ i hi, show FORCE_CLAMP = 2 from rfl]

/-- The position update of the claim for C9: every entry of `X` moves by
`clamp(Pᵢ·dt + 0.5·Fᵢ·dt², -0.15, 0.15)` with `Fᵢ` the claimed force. -/
def posSpec (s : MatrixSimulation) (dt : ℚ) : List (List ℚ) :=
  (List.range 3).map fun i =>
    (List.range (s.n * s.n)).map fun idx =>
      ent s.x i idx +
        clampQ (ent s.p i idx * dt + 1 / 2 * forceSpec s i idx * (dt * dt))
          (-(3 / 20)) (3 / 20)

theorem stepX1_eq_posSpec (s : MatrixSimulation) (dt : ℚ) :
    stepX1 s dt = posSpec s dt := by
  rw [stepX1, posSpec]
  apply List.map_congr_left
  intro i hi
  apply List.map_congr_left
  intro idx hidx
  rw [List.mem_range] at hi hidx
  rw [posDisp, forces_eq_spec s hi hidx, show POS_STEP_CLAMP = 3 / 20 from rfl]

/-- C9: one `step(dt)` computes for each `i` the clamped force
`Fᵢ = clamp(coupling²·Σ_{j≠i}[Xⱼ,[Xⱼ,Xᵢ]] − mass²·Xᵢ, -2, 2)`, applies the
clamped position update, recomputes the force `F'ᵢ` at the updated
positions, and sets every momentum entry to
`clamp((1 − damping·dt)·(Pᵢ + 0.5·(Fᵢ+F'ᵢ)·dt), -3, 3)`. -/
theorem C9_step_formula (s : MatrixSimulation) (dt : ℚ) (i idx : ℕ) (hi : i < 3)
    (hidx : idx < s.n * s.n) :
    ent (compute_forces s) i idx = forceSpec s i idx ∧
    ent (step s dt).p i idx =
      clampQ ((1 - s.damping * dt) *
        (ent s.p i idx +
          1 / 2 * (forceSpec s i idx + forceSpec { s with x := posSpec s dt } i idx) * dt))
        (-3) 3 := by
  refine ⟨forces_eq_spec s hi hidx, ?_⟩
  have h1 : ent (step s dt).p i idx = ent (stepP1 s dt) i idx := rfl
  rw [h1, stepP1, ent_grid _ hi hidx, forces_eq_spec s hi hidx]
  have h2 : ent (compute_forces { s with x := stepX1 s dt }) i idx =
      forceSpec { s with x := stepX1 s dt } i idx :=
    forces_eq_spec { s with x := stepX1 s dt } hi hidx
  rw [h2, stepX1_eq_posSpec s dt, show MOM_CLAMP = 3 from rfl]

theorem C9_step_formula_witness :
    ((0 : ℕ) < 3 ∧
      (0 : ℕ) < (new 1 1 1 1 fun _ => 1 / 2).n * (new 1 1 1 1 fun _ => 1 / 2).n) ∧
    (ent (compute_forces (new 1 1 1 1 fun _ => 1 / 2)) 0 0 =
        forceSpec (new 1 1 1 1 fun _ => 1 / 2) 0 0 ∧
      ent (step (new 1 1 1 1 fun _ => 1 / 2) 1).p 0 0 =
        clampQ ((1 - (new 1 1 1 1 fun _ => 1 / 2).damping * 1) *
          (ent (new 1 1 1 1 fun _ => 1 / 2).p 0 0 +
            1 / 2 * (forceSpec (new 1 1 1 1 fun _ => 1 / 2) 0 0 +
              forceSpec { new 1 1 1 1 fun _ => 1 / 2 with
                x := posSpec (new 1 1 1 1 fun _ => 1 / 2) 1 } 0 0) * 1))
          (-3) 3) :=
  ⟨⟨by decide, by decide⟩,
   C9_step_formula (new 1 1 1 1 fun _ => 1 / 2) 1 0 0 (by decide) (by decide)⟩

theorem sum_sq_decompose (n : ℕ) (f : ℕ → ℚ) :
    ∑ idx in Finset.range (n * n), f idx =
      ∑ a in Finset.range n, ∑ b in Finset.range n, f (a * n + b) := by
  rw [show (∑ a in Finset.range n, ∑ b in Finset.range n, f (a * n + b)) =
      ∑ p in Finset.range n ×ˢ Finset.range n, f (p.1 * n + p.2) from
    (Finset.sum_product (Finset.range n) (Finset.range n)
      (fun p => f (p.1 * n + p.2))).symm]
  apply Finset.sum_nbij' (fun idx => (idx / n, idx % n)) (fun p => p.1 * n + p.2)
  · intro idx hidx
    rw [Finset.mem_range] at hidx
    rcases Nat.eq_zero_or_pos n with rfl | hn
    · omega
    · rw [Finset.mem_product, Finset.mem_range, Finset.mem_range]
      exact ⟨Nat.div_lt_of_lt_mul hidx, Nat.mod_lt _ hn⟩
  · intro p hp
    rw [Finset.mem_product, Finset.mem_range, Finset.mem_range] at hp
    rw [Finset.mem_range]
    exact encode_lt hp.1 hp.2
  · intro idx _
    exact Nat.div_add_mod' idx n
  · intro p hp
    rw [Finset.mem_product, Finset.mem_range, Finset.mem_range] at hp
    exact Prod.ext (decode_div hp.2) (decode_mod hp.2)
  · intro idx _
    rw [Nat.div_add_mod' idx n]

/-- `Tr(C²)` for a flat `n×n` matrix `C`: the sum over all `(a,b)` of
`C[a][b]·C[b][a]`, the claim's reading of the trace of the squared
commutator. -/
def trSq (c : List ℚ) (n : ℕ) : ℚ :=
  ∑ a in Finset.range n, ∑ b in Finset.range n, c.getD (a * n + b) 0 * c.getD (b * n + a) 0

/-- Formalization of the C1 claim, following the spec sentence as written:
`H = ½·Tr(P²) − ¼·coupling²·Σ_{i≠j} Tr([Xᵢ,Xⱼ]²) + ½·mass²·Σᵢ Tr(Xᵢ²)`,
with the kinetic and mass traces read (as the claim itself glosses) as sums
of squared entries, and the middle sum ranging over ordered pairs `i ≠ j`. -/
def specHamiltonian (s : MatrixSimulation) : ℚ :=
  (∑ i in Finset.range 3, ∑ idx in Finset.range (s.n * s.n),
      1 / 2 * ent s.p i idx * ent s.p i idx)
  - 1 / 4 * s.coupling ^ 2 *
      (∑ i in Finset.range 3, Finset.sum ((Finset.range 3).filter (fun j => j ≠ i)) fun j =>
        trSq (commutator (s.x.getD i []) (s.x.getD j []) s.n) s.n)
  + 1 / 2 * s.mass ^ 2 *
      (∑ i in Finset.range 3, ∑ idx in Finset.range (s.n * s.n),
        ent s.x i idx * ent s.x i idx)

theorem comm_swap_entry (A B : List ℚ) {n a b : ℕ} (ha : a < n) (hb : b < n) :
    (commutator B A n).getD (a * n + b) 0 = -((commutator A B n).getD (a * n + b) 0) := by
  rw [commutator_entry B A ha hb, commutator_entry A B ha hb]
  ring

theorem trSq_swap (A B : List ℚ) (n : ℕ) :
    trSq (commutator B A n) n = trSq (commutator A B n) n := by
  rw [trSq, trSq]
  apply Finset.sum_congr rfl
  intro a ha
  apply Finset.sum_congr rfl
  intro b hb
  rw [Finset.mem_range] at ha hb
  rw [comm_swap_entry A B ha hb, comm_swap_entry A B hb ha]
  ring

theorem trSq_eq_neg_frob {A B : List ℚ} {n : ℕ} (hA : SymRow n A) (hB : SymRow n B) :
    trSq (commutator A B n) n =
      -∑ idx in Finset.range (n * n),
        (commutator A B n).getD idx 0 * (commutator A B n).getD idx 0 := by
  rw [trSq, sum_sq_decompose n
    (fun idx => (commutator A B n).getD idx 0 * (commutator A B n).getD idx 0),
    ← Finset.sum_neg_distrib]
  apply Finset.sum_congr rfl
  intro a ha
  rw [← Finset.sum_neg_distrib]
  apply Finset.sum_congr rfl
  intro b hb
  rw [Finset.mem_range] at ha hb
  have hanti := commutator_anti hA hB
  rw [hanti b hb a ha]
  ring

theorem sum_pairs_ne (g : ℕ → ℕ → ℚ) :
    (∑ i in Finset.range 3, Finset.sum ((Finset.range 3).filter (fun j => j ≠ i)) fun j => g i j) =
      g 0 1 + g 0 2 + (g 1 0 + g 1 2) + (g 2 0 + g 2 1) := by
  simp [Finset.sum_filter, Finset.sum_range_succ]

theorem sum_pairs_lt (g : ℕ → ℕ → ℚ) :
    (∑ i in Finset.range 3, ∑ j in Finset.Ico (i + 1) 3, g i j) = g 0 1 + g 0 2 + g 1 2 := by
  simp [Finset.sum_Ico_eq_sum_range, Finset.sum_range_succ]

/-- C1 (amended): on states with symmetric `X` matrices (every state the
simulation produces), `get_energy` returns
`½·Σ entries of P² + ½·mass²·Σ entries of X² + ⅛·coupling²·Σ_{i≠j} Tr([Xᵢ,Xⱼ]²)`:
compared with the claim, the coefficient of the ordered-pair trace sum is
`+1/8`, not `-1/4` (equivalently, the code subtracts
`¼·coupling²·Σ_{i<j} (sum of squared entries of [Xᵢ,Xⱼ])`, which is minus a
quarter of the Frobenius norm over unordered pairs); the result may be
negative. -/
theorem C1_energy_formula (s : MatrixSimulation) (hsym : SymFam s.n s.x) :
    get_energy s =
      (∑ i in Finset.range 3, ∑ idx in Finset.range (s.n * s.n),
          1 / 2 * ent s.p i idx * ent s.p i idx)
      + 1 / 8 * s.coupling ^ 2 *
          (∑ i in Finset.range 3, Finset.sum ((Finset.range 3).filter (fun j => j ≠ i)) fun j =>
            trSq (commutator (s.x.getD i []) (s.x.getD j []) s.n) s.n)
      + 1 / 2 * s.mass ^ 2 *
          (∑ i in Finset.range 3, ∑ idx in Finset.range (s.n * s.n),
            ent s.x i idx * ent s.x i idx) := by
  have h0 := hsym 0 (by norm_num)
  have h1 := hsym 1 (by norm_num)
  have h2 := hsym 2 (by norm_num)
  have pull : ∀ A B : List ℚ,
      (∑ idx in Finset.range (s.n * s.n),
        1 / 4 * s.coupling * s.coupling *
          (commutator A B s.n).getD idx 0 * (commutator A B s.n).getD idx 0) =
      1 / 4 * s.coupling * s.coupling *
        ∑ idx in Finset.range (s.n * s.n),
          (commutator A B s.n).getD idx 0 * (commutator A B s.n).getD idx 0 := by
    intro A B
    rw [Finset.mul_sum]
    exact Finset.sum_congr rfl fun idx _ => by ring
  have pullm : (∑ i in Finset.range 3, ∑ idx in Finset.range (s.n * s.n),
      1 / 2 * s.mass * s.mass * ent s.x i idx * ent s.x i idx) =
      1 / 2 * s.mass * s.mass *
        ∑ i in Finset.range 3, ∑ idx in Finset.range (s.n * s.n),
          ent s.x i idx * ent s.x i idx := by
    rw [Finset.mul_sum]
    refine Finset.sum_congr rfl fun i _ => ?_
    rw [Finset.mul_sum]
    exact Finset.sum_congr rfl fun idx _ => by ring
  rw [get_energy,
    sum_pairs_lt (fun i j => ∑ idx in Finset.range (s.n * s.n),
      1 / 4 * s.coupling * s.coupling *
        (commutator (s.x.getD i []) (s.x.getD j []) s.n).getD idx 0 *
        (commutator (s.x.getD i []) (s.x.getD j []) s.n).getD idx 0),
    sum_pairs_ne (fun i j =>
      trSq (commutator (s.x.getD i []) (s.x.getD j []) s.n) s.n),
    trSq_swap (s.x.getD 0 []) (s.x.getD 1 []),
    trSq_swap (s.x.getD 0 []) (s.x.getD 2 []),
    trSq_swap (s.x.getD 1 []) (s.x.getD 2 []),
    trSq_eq_neg_frob h0 h1, trSq_eq_neg_frob h0 h2, trSq_eq_neg_frob h1 h2,
    pull (s.x.getD 0 []) (s.x.getD 1 []),
    pull (s.x.getD 0 []) (s.x.getD 2 []),
    pull (s.x.getD 1 []) (s.x.getD 2 []), pullm]
  ring

/-- The random stream for the C1 counterexample: draw 1 gives `X₀` the
off-diagonal pair `(0,1)`, draw 10 gives `X₁` the diagonal entry `(0,0)`;
all other draws are `1/2`, producing zero entries. -/
def rndC1 : ℕ → ℚ := fun k => if k = 1 then 3 / 4 else if k = 10 then 3 / 4 else 1 / 2

set_option maxRecDepth 1000000 in
/-- C1 counterexample: at the construction state `new(4, 1.0, 1.0)` (with
the stream `rndC1`, whose matrices `X₀` and `X₁` do not commute),
`get_energy` differs from the Hamiltonian formula of the claim: the claimed
trace of the squared commutator over ordered pairs has the opposite sign
(and twice the multiplicity) of what the code accumulates. -/
theorem C1_counterexample :
    get_energy (new 4 1 1 2 rndC1) ≠ specHamiltonian (new 4 1 1 2 rndC1) := by
  with_unfolding_all decide

theorem C1_energy_formula_witness :
    (∀ i < 3, SymRow (new 4 1 1 2 rndC1).n ((new 4 1 1 2 rndC1).x.getD i [])) ∧
    get_energy (new 4 1 1 2 rndC1) =
      (∑ i in Finset.range 3,
          ∑ idx in Finset.range ((new 4 1 1 2 rndC1).n * (new 4 1 1 2 rndC1).n),
          1 / 2 * ent (new 4 1 1 2 rndC1).p i idx * ent (new 4 1 1 2 rndC1).p i idx)
      + 1 / 8 * (new 4 1 1 2 rndC1).coupling ^ 2 *
          (∑ i in Finset.range 3,
            Finset.sum ((Finset.range 3).filter (fun j => j ≠ i)) fun j =>
            trSq (commutator ((new 4 1 1 2 rndC1).x.getD i [])
              ((new 4 1 1 2 rndC1).x.getD j []) (new 4 1 1 2 rndC1).n)
              (new 4 1 1 2 rndC1).n)
      + 1 / 2 * (new 4 1 1 2 rndC1).mass ^ 2 *
          (∑ i in Finset.range 3,
            ∑ idx in Finset.range ((new 4 1 1 2 rndC1).n * (new 4 1 1 2 rndC1).n),
            ent (new 4 1 1 2 rndC1).x i idx * ent (new 4 1 1 2 rndC1).x i idx) :=
  ⟨(new_inv 4 1 1 2 rndC1).2.1,
   C1_energy_formula (new 4 1 1 2 rndC1) (new_inv 4 1 1 2 rndC1).2.1⟩

end MatrixClaims

/-! ## String simulation (`string_physics.rs`)

Positions and velocities are 3-vectors of exact reals; the external uniform
source is a stream `ℕ → ℝ` threaded through the intersection scan in
program order. -/

section StringPhysics

attribute [local instance] Classical.propDecidable

/-- A 3-vector (one `[f64; 3]`). -/
abbrev Vec3 : Type := ℝ × ℝ × ℝ

/-- The zero vector, used as the (never reached) default of list reads. -/
def v0 : Vec3 := (0, 0, 0)

/-- `MIN_LOOP_POINTS`. -/
def MIN_LOOP_POINTS : ℕ := 20

/-- `INTERSECTION_THRESHOLD = 0.8`. -/
noncomputable def INTERSECTION_THRESHOLD : ℝ := 4 / 5

/-- `TARGET_POINT_DENSITY = 0.5`. -/
noncomputable def TARGET_POINT_DENSITY : ℝ := 1 / 2

/-- `MAX_LOOPS`. -/
def MAX_LOOPS : ℕ := 8

/-- `dist3d`: Euclidean distance of two 3-vectors. -/
noncomputable def dist3d (a b : Vec3) : ℝ :=
  Real.sqrt ((a.1 - b.1) * (a.1 - b.1) + (a.2.1 - b.2.1) * (a.2.1 - b.2.1) +
    (a.2.2 - b.2.2) * (a.2.2 - b.2.2))

/-- `StringLoop`: a discretized closed curve. -/
structure StringLoop where
  positions : List Vec3
  velocities : List Vec3
  color_id : ℕ

/-- `StringLoop::len`. -/
def StringLoop.len (lp : StringLoop) : ℕ := lp.positions.length

/-- `StringLoop::new(n, color_id)`: the deterministic parametric seed curve
with phase offset `0.7 · color_id` and small initial velocities. -/
noncomputable def StringLoop.new (n : ℕ) (color_id : ℕ) : StringLoop :=
  { positions := (List.range n).map fun i =>
      (Real.cos (2 * Real.pi * i / n + color_id * (7 / 10)) * 3 +
        Real.sin (2 * Real.pi * i / n * 2) * (1 / 2),
       Real.sin (2 * Real.pi * i / n + color_id * (7 / 10)) * 3 +
        Real.cos (2 * Real.pi * i / n * 3) * (1 / 2),
       Real.sin (2 * Real.pi * i / n * (1 / 2) + color_id * (7 / 10)) * (3 / 2))
    velocities := (List.range n).map fun i =>
      (-Real.sin (2 * Real.pi * i / n + color_id * (7 / 10)) * (3 / 10),
       Real.cos (2 * Real.pi * i / n + color_id * (7 / 10)) * (3 / 10),
       Real.cos (2 * Real.pi * i / n * (1 / 2)) * (1 / 10))
    color_id := color_id }

/-- `StringLoop::resample(target_n)`: index-uniform linear interpolation of
positions and velocities (identity when the length already matches). -/
noncomputable def StringLoop.resample (lp : StringLoop) (target_n : ℕ) : StringLoop :=
  if lp.len = target_n then lp
  else
    { positions := (List.range target_n).map fun i =>
        let t : ℝ := (i : ℝ) / (target_n : ℝ) * (lp.len : ℝ)
        let idx : ℕ := (⌊t⌋).toNat % lp.len
        let frac : ℝ := t - ⌊t⌋
        let a := lp.positions.getD idx v0
        let b := lp.positions.getD ((idx + 1) % lp.len) v0
        (a.1 + frac * (b.1 - a.1), a.2.1 + frac * (b.2.1 - a.2.1),
         a.2.2 + frac * (b.2.2 - a.2.2))
      velocities := (List.range target_n).map fun i =>
        let t : ℝ := (i : ℝ) / (target_n : ℝ) * (lp.len : ℝ)
        let idx : ℕ := (⌊t⌋).toNat % lp.len
        let frac : ℝ := t - ⌊t⌋
        let a := lp.velocities.getD idx v0
        let b := lp.velocities.getD ((idx + 1) % lp.len) v0
        (a.1 + frac * (b.1 - a.1), a.2.1 + frac * (b.2.1 - a.2.1),
         a.2.2 + frac * (b.2.2 - a.2.2))
      color_id := lp.color_id }

/-- `f64::clamp` over exact reals. -/
noncomputable def clampR (v lo hi : ℝ) : ℝ := min (max v lo) hi

/-- The Laplacian-based string forces of `StringSimulation::step`: at each
point, `coupling` times the discrete second difference across the two
cyclic neighbors (`coupling_force`). -/
noncomputable def loopForces (coupling : ℝ) (ps : List Vec3) : List Vec3 :=
  (List.range ps.length).map fun i =>
    let prev := if i = 0 then ps.length - 1 else i - 1
    let nxt := (i + 1) % ps.length
    (coupling * ((ps.getD prev v0).1 - 2 * (ps.getD i v0).1 + (ps.getD nxt v0).1),
     coupling * ((ps.getD prev v0).2.1 - 2 * (ps.getD i v0).2.1 + (ps.getD nxt v0).2.1),
     coupling * ((ps.getD prev v0).2.2 - 2 * (ps.getD i v0).2.2 + (ps.getD nxt v0).2.2))

/-- The per-loop velocity-Verlet phase of `StringSimulation::step`:
advance positions, recompute forces, update velocities with the force
average, clamping every velocity component to `[-5, 5]`. -/
noncomputable def advanceLoop (coupling dt : ℝ) (lp : StringLoop) : StringLoop :=
  let forces := loopForces coupling lp.positions
  let pos1 := (List.range lp.len).map fun i =>
    ((lp.positions.getD i v0).1 + (lp.velocities.getD i v0).1 * dt +
      1 / 2 * (forces.getD i v0).1 * (dt * dt),
     (lp.positions.getD i v0).2.1 + (lp.velocities.getD i v0).2.1 * dt +
      1 / 2 * (forces.getD i v0).2.1 * (dt * dt),
     (lp.positions.getD i v0).2.2 + (lp.velocities.getD i v0).2.2 * dt +
      1 / 2 * (forces.getD i v0).2.2 * (dt * dt))
  let forces2 := loopForces coupling pos1
  let vel1 := (List.range lp.len).map fun i =>
    (clampR ((lp.velocities.getD i v0).1 +
        1 / 2 * ((forces.getD i v0).1 + (forces2.getD i v0).1) * dt) (-5) 5,
     clampR ((lp.velocities.getD i v0).2.1 +
        1 / 2 * ((forces.getD i v0).2.1 + (forces2.getD i v0).2.1) * dt) (-5) 5,
     clampR ((lp.velocities.getD i v0).2.2 +
        1 / 2 * ((forces.getD i v0).2.2 + (forces2.getD i v0).2.2) * dt) (-5) 5)
  { positions := pos1, velocities := vel1, color_id := lp.color_id }

/-- `split_loop`: child A takes points `i..=j` (indices taken mod `n` as in
the source), child B takes `j..n` followed by `0..=i`; the children receive
the two fresh ids `c1`, `c2`. -/
def splitLoop (lp : StringLoop) (i j c1 c2 : ℕ) : StringLoop × StringLoop :=
  ({ positions := (List.range' i (j - i + 1)).map fun k => lp.positions.getD (k % lp.len) v0
     velocities := (List.range' i (j - i + 1)).map fun k => lp.velocities.getD (k % lp.len) v0
     color_id := c1 },
   { positions := ((List.range' j (lp.len - j)).map fun k => lp.positions.getD k v0) ++
       ((List.range (i + 1)).map fun k => lp.positions.getD k v0)
     velocities := ((List.range' j (lp.len - j)).map fun k => lp.velocities.getD k v0) ++
       ((List.range (i + 1)).map fun k => lp.velocities.getD k v0)
     color_id := c2 })

/-- The two filters the scan of `check_intersections` applies to a pair
`(i, j)` before measuring distance: it is not the degenerate wrap pair
`(0, n-1)`, and both child segments are at least `MIN_LOOP_POINTS` long. -/
def qualifies (n i j : ℕ) : Bool :=
  !(j == n - 1 && i == 0) &&
    decide (MIN_LOOP_POINTS ≤ j - i + 1) && decide (MIN_LOOP_POINTS ≤ (n - j) + (i + 1))

/-- The `(i, j)` pairs visited by the scan
`for i in 0..n { for j in (i+4)..n { ... } }`, in order. -/
def scanIdx (n : ℕ) : List (ℕ × ℕ) :=
  (List.range n).flatMap fun i => (List.range' (i + 4) (n - (i + 4))).map fun j => (i, j)

/-- The scan of `check_intersections` for one loop: pairs failing
`qualifies` are skipped; every qualifying pair closer than
`INTERSECTION_THRESHOLD` consumes one uniform draw against
`min(coupling·0.3, 0.8)`; the first draw that fires selects the split pair
and ends the scan.  Returns the selected pair (if any) and the next unused
index of the random stream. -/
noncomputable def findSplit (lp : StringLoop) (coupling : ℝ) (rnd : ℕ → ℝ) :
    List (ℕ × ℕ) → ℕ → Option (ℕ × ℕ) × ℕ
  | [], k => (none, k)
  | (i, j) :: rest, k =>
      if qualifies lp.len i j then
        if dist3d (lp.positions.getD i v0) (lp.positions.getD j v0) < INTERSECTION_THRESHOLD then
          if rnd k < min (coupling * (3 / 10)) (4 / 5) then (some (i, j), k + 1)
          else findSplit lp coupling rnd rest (k + 1)
        else findSplit lp coupling rnd rest k
      else findSplit lp coupling rnd rest k

/-- `StringSimulation::check_intersections`, threaded over the loop list:
returns the kept (unsplit) loops, the new child loops in scan order, the
next fresh id, and the next unused random index.  The caller's loop list
afterwards is `kept ++ children`, matching the source's
`remove`-then-`extend`. -/
noncomputable def processIntersections (coupling : ℝ) (rnd : ℕ → ℝ) :
    List StringLoop → ℕ → ℕ → List StringLoop × List StringLoop × ℕ × ℕ
  | [], cid, k => ([], [], cid, k)
  | lp :: rest, cid, k =>
      match findSplit lp coupling rnd (scanIdx lp.len) k with
      | (none, k1) =>
          let r := processIntersections coupling rnd rest cid k1
          (lp :: r.1, r.2.1, r.2.2.1, r.2.2.2)
      | (some (i, j), k1) =>
          let c := splitLoop lp i j cid (cid + 1)
          let children :=
            (if MIN_LOOP_POINTS ≤ c.1.len then [c.1] else []) ++
            (if MIN_LOOP_POINTS ≤ c.2.len then [c.2] else [])
          let r := processIntersections coupling rnd rest (cid + 2) k1
          (r.1, children ++ r.2.1, r.2.2.1, r.2.2.2)

/-- `StringSimulation::resample_loops` body for one loop: total cyclic arc
length, clamped target point count, and resampling only when the count is
more than 10 away from the current one. -/
noncomputable def resampleLoop (lp : StringLoop) : StringLoop :=
  let total_len : ℝ := ∑ i in Finset.range lp.len,
    dist3d (lp.positions.getD i v0) (lp.positions.getD ((i + 1) % lp.len) v0)
  let target := min (max (⌊total_len / TARGET_POINT_DENSITY⌋.toNat) MIN_LOOP_POINTS) 256
  if 10 < ((target : ℤ) - (lp.len : ℤ)).natAbs then lp.resample target else lp

/-- `StringSimulation` state: the active loops, the shared coupling and the
monotone identity counter. -/
structure StringSimulation where
  loops : List StringLoop
  coupling : ℝ
  next_color_id : ℕ

/-- `StringSimulation::new(coupling)`: two seed loops of sizes 64 and 48
with ids 0 and 1; the id counter starts at 2. -/
noncomputable def StringSimulation.new (coupling : ℝ) : StringSimulation :=
  { loops := [StringLoop.new 64 0, StringLoop.new 48 1]
    coupling := coupling
    next_color_id := 2 }

/-- `StringSimulation::step(dt)`: advance every loop, then (only when the
loop count is below `MAX_LOOPS`) run the intersection scan and apply the
splits, then resample every surviving loop. -/
noncomputable def StringSimulation.step (s : StringSimulation) (dt : ℝ) (rnd : ℕ → ℝ) :
    StringSimulation :=
  let advanced := s.loops.map (advanceLoop s.coupling dt)
  let s1 : StringSimulation :=
    if advanced.length < MAX_LOOPS then
      let r := processIntersections s.coupling rnd advanced s.next_color_id 0
      { loops := r.1 ++ r.2.1, coupling := s.coupling, next_color_id := r.2.2.1 }
    else { loops := advanced, coupling := s.coupling, next_color_id := s.next_color_id }
  { s1 with loops := s1.loops.map resampleLoop }

/-- `StringSimulation::set_coupling`. -/
def StringSimulation.set_coupling (s : StringSimulation) (c : ℝ) : StringSimulation :=
  { s with coupling := c }

/-- Events of the string simulation; each step carries its slice of the
external random stream. -/
inductive SEvent where
  | step (dt : ℝ) (rnd : ℕ → ℝ)
  | setCoupling (c : ℝ)

/-- Run a sequence of string-simulation events. -/
noncomputable def runString (s : StringSimulation) : List SEvent → StringSimulation
  | [] => s
  | SEvent.step dt rnd :: rest => runString (s.step dt rnd) rest
  | SEvent.setCoupling c :: rest => runString (s.set_coupling c) rest

end StringPhysics

namespace StringClaims

/-! ### C7: the split partitions the parent loop -/

theorem map_getD_range {α : Type} (l : List α) (d : α) :
    (List.range l.length).map (fun k => l.getD k d) = l := by
  apply List.ext_getElem (by simp)
  intro k h1 h2
  rw [List.getElem_map, List.getElem_range,
    List.getD_eq_getElem l d (by simpa using h2)]

theorem range'_split_j {i j : ℕ} (hij : i ≤ j) :
    List.range' i (j - i + 1) = List.range' i (j - i) ++ [j] := by
  have h := List.range'_append i (j - i) 1 1
  rw [one_mul, show i + (j - i) = j from by omega, show 1 + (j - i) = j - i + 1 from by omega]
    at h
  rw [← h, List.range'_one]

theorem range_split {i j n : ℕ} (hij : i ≤ j) (hjn : j ≤ n) :
    List.range n = (List.range i ++ List.range' i (j - i)) ++ List.range' j (n - j) := by
  have ha := List.range'_append 0 i (j - i) 1
  rw [one_mul, zero_add, show j - i + i = j from by omega] at ha
  have hb := List.range'_append 0 j (n - j) 1
  rw [one_mul, zero_add, show n - j + j = n from by omega] at hb
  rw [List.range_eq_range', ← hb, ← ha, List.range_eq_range']

theorem splitIdx_multiset {i j n : ℕ} (hij : i < j) (hjn : j < n) :
    ((List.range' i (j - i + 1) : List ℕ) : Multiset ℕ) +
      (((List.range' j (n - j)) ++ (List.range (i + 1)) : List ℕ) : Multiset ℕ) =
    ((List.range n : List ℕ) : Multiset ℕ) + {i, j} := by
  rw [range'_split_j (le_of_lt hij), List.range_succ,
    range_split (le_of_lt hij) (le_of_lt hjn),
    show ({i, j} : Multiset ℕ) = ((([i] ++ [j] : List ℕ)) : Multiset ℕ) from rfl]
  simp only [← Multiset.coe_add]
  abel

/-- C7: splitting a loop of length `n` at valid indices `i < j < n` (both
child lengths at least 20) yields child A with points `i..j` inclusive
(length `j-i+1`), child B with points `j..n-1` followed by `0..i` inclusive
(length `(n-j)+(i+1)`), and the concatenation of the two children's point
lists is, as a multiset, the original points plus one extra copy each of
point `i` and point `j`; velocities are partitioned identically. -/
theorem C7_split_partition (lp : StringLoop) (n i j c1 c2 : ℕ)
    (hn : lp.positions.length = n) (hv : lp.velocities.length = n)
    (hij : i < j) (hjn : j < n)
    (_hA : MIN_LOOP_POINTS ≤ j - i + 1) (_hB : MIN_LOOP_POINTS ≤ (n - j) + (i + 1)) :
    (splitLoop lp i j c1 c2).1.positions =
      (List.range' i (j - i + 1)).map (fun k => lp.positions.getD k v0) ∧
    (splitLoop lp i j c1 c2).2.positions =
      ((List.range' j (n - j)) ++ (List.range (i + 1))).map (fun k => lp.positions.getD k v0) ∧
    (splitLoop lp i j c1 c2).1.len = j - i + 1 ∧
    (splitLoop lp i j c1 c2).2.len = (n - j) + (i + 1) ∧
    (((splitLoop lp i j c1 c2).1.positions ++ (splitLoop lp i j c1 c2).2.positions :
        List Vec3) : Multiset Vec3) =
      (lp.positions : Multiset Vec3) + {lp.positions.getD i v0, lp.positions.getD j v0} ∧
    (((splitLoop lp i j c1 c2).1.velocities ++ (splitLoop lp i j c1 c2).2.velocities :
        List Vec3) : Multiset Vec3) =
      (lp.velocities : Multiset Vec3) + {lp.velocities.getD i v0, lp.velocities.getD j v0} := by
  have hlen : lp.len = n := hn
  have e1 : (splitLoop lp i j c1 c2).1.positions =
      (List.range' i (j - i + 1)).map (fun k => lp.positions.getD k v0) := by
    rw [splitLoop]
    apply List.map_congr_left
    intro k hk
    rw [List.mem_range'_1] at hk
    rw [hlen, Nat.mod_eq_of_lt (by omega)]
  have e1v : (splitLoop lp i j c1 c2).1.velocities =
      (List.range' i (j - i + 1)).map (fun k => lp.velocities.getD k v0) := by
    rw [splitLoop]
    apply List.map_congr_left
    intro k hk
    rw [List.mem_range'_1] at hk
    rw [hlen, Nat.mod_eq_of_lt (by omega)]
  have e2 : (splitLoop lp i j c1 c2).2.positions =
      ((List.range' j (n - j)) ++ (List.range (i + 1))).map
        (fun k => lp.positions.getD k v0) := by
    rw [splitLoop, List.map_append, hlen]
  have e2v : (splitLoop lp i j c1 c2).2.velocities =
      ((List.range' j (n - j)) ++ (List.range (i + 1))).map
        (fun k => lp.velocities.getD k v0) := by
    rw [splitLoop, List.map_append, hlen]
  have e3 : (splitLoop lp i j c1 c2).1.len = j - i + 1 := by
    rw [StringLoop.len, e1, List.length_map, List.length_range']
  have e4 : (splitLoop lp i j c1 c2).2.len = (n - j) + (i + 1) := by
    rw [StringLoop.len, e2, List.length_map, List.length_append, List.length_range',
      List.length_range]
  have hmr : (List.range n).map (fun k => lp.positions.getD k v0) = lp.positions := by
    rw [← hn]
    exact map_getD_range lp.positions v0
  have hmrv : (List.range n).map (fun k => lp.velocities.getD k v0) = lp.velocities := by
    rw [← hv]
    exact map_getD_range lp.velocities v0
  refine ⟨e1, e2, e3, e4, ?_, ?_⟩
  · rw [e1, e2, ← Multiset.coe_add, ← Multiset.map_coe, ← Multiset.map_coe,
      ← Multiset.map_add, splitIdx_multiset hij hjn, Multiset.map_add, Multiset.map_coe, hmr]
    simp
  · rw [e1v, e2v, ← Multiset.coe_add, ← Multiset.map_coe, ← Multiset.map_coe,
      ← Multiset.map_add, splitIdx_multiset hij hjn, Multiset.map_add, Multiset.map_coe, hmrv]
    simp

theorem C7_split_partition_witness :
    ((List.replicate 40 v0).length = 40 ∧ 9 < 29 ∧ 29 < 40 ∧
      MIN_LOOP_POINTS ≤ 29 - 9 + 1 ∧ MIN_LOOP_POINTS ≤ (40 - 29) + (9 + 1)) ∧
    (splitLoop ⟨List.replicate 40 v0, List.replicate 40 v0, 0⟩ 9 29 2 3).1.len = 29 - 9 + 1 :=
  ⟨⟨by simp, by decide, by decide, by decide, by decide⟩,
   (C7_split_partition ⟨List.replicate 40 v0, List.replicate 40 v0, 0⟩ 40 9 29 2 3
      (by simp) (by simp) (by decide) (by decide) (by decide) (by decide)).2.2.1⟩

/-! ### C5: the intersection scan -/

attribute [local instance] Classical.propDecidable

/-- One independent uniform draw per listed pair, in order: the first pair
whose draw lies below `prob` is returned; every visited pair consumes
exactly one draw. -/
noncomputable def firstFire (prob : ℝ) (rnd : ℕ → ℝ) :
    List (ℕ × ℕ) → ℕ → Option (ℕ × ℕ) × ℕ
  | [], k => (none, k)
  | p :: rest, k =>
      if rnd k < prob then (some p, k + 1) else firstFire prob rnd rest (k + 1)

/-- C5 (amended): the scan of `check_intersections` is `firstFire` over the
qualifying pairs whose distance is below the threshold, in ascending scan
order: each such pair consumes its own draw against `min(coupling·0.3, 0.8)`,
the first pair whose draw fires is the split point, and pairs that do not
qualify or are not close consume no randomness.  In particular at most one
split happens per loop per step, but a failed draw at the first close pair
does not stop the scan. -/
theorem C5_scan_is_firstFire (lp : StringLoop) (coupling : ℝ) (rnd : ℕ → ℝ)
    (l : List (ℕ × ℕ)) (k : ℕ) :
    findSplit lp coupling rnd l k =
      firstFire (min (coupling * (3 / 10)) (4 / 5)) rnd
        (l.filter fun p => qualifies lp.len p.1 p.2 &&
          decide (dist3d (lp.positions.getD p.1 v0) (lp.positions.getD p.2 v0) <
            INTERSECTION_THRESHOLD)) k := by
  induction l generalizing k with
  | nil => rfl
  | cons p rest ih =>
      obtain ⟨i, j⟩ := p
      rw [List.filter_cons]
      by_cases hq : qualifies lp.len i j = true
      · by_cases hd : dist3d (lp.positions.getD i v0) (lp.positions.getD j v0) <
            INTERSECTION_THRESHOLD
        · have hcond : (qualifies lp.len i j &&
              decide (dist3d (lp.positions.getD i v0) (lp.positions.getD j v0) <
                INTERSECTION_THRESHOLD)) = true := by
            rw [hq, decide_eq_true hd]
            rfl
          rw [if_pos hcond]
          by_cases hr : rnd k < min (coupling * (3 / 10)) (4 / 5)
          · simp only [findSplit, firstFire, if_pos hq, if_pos hd, if_pos hr]
          · simp only [findSplit, firstFire, if_pos hq, if_pos hd, if_neg hr]
            exact ih (k + 1)
        · have hcond : (qualifies lp.len i j &&
              decide (dist3d (lp.positions.getD i v0) (lp.positions.getD j v0) <
                INTERSECTION_THRESHOLD)) = false := by
            rw [hq, decide_eq_false hd]
            rfl
          rw [if_neg (show ¬_ = true from by rw [hcond]; exact Bool.false_ne_true)]
          simp only [findSplit, if_pos hq, if_neg hd]
          exact ih k
      · have hq2 : qualifies lp.len i j = false := by
          simpa using hq
        have hcond : (qualifies lp.len i j &&
            decide (dist3d (lp.positions.getD i v0) (lp.positions.getD j v0) <
              INTERSECTION_THRESHOLD)) = false := by
          rw [hq2]
          rfl
        rw [if_neg (show ¬_ = true from by rw [hcond]; exact Bool.false_ne_true)]
        simp only [findSplit, if_neg hq]
        exact ih k

theorem dist3d_xaxis (a b : ℝ) : dist3d (a, 0, 0) (b, 0, 0) = |a - b| := by
  show Real.sqrt ((a - b) * (a - b) + (0 - 0) * (0 - 0) + (0 - 0) * (0 - 0)) = |a - b|
  rw [show ((a - b) * (a - b) + ((0:ℝ) - 0) * (0 - 0) + ((0:ℝ) - 0) * (0 - 0)) =
    (a - b) ^ 2 from by ring, Real.sqrt_sq_eq_abs]

theorem findSplit_skip_all (lp : StringLoop) (c : ℝ) (rnd : ℕ → ℝ)
    (l1 l2 : List (ℕ × ℕ)) (k : ℕ)
    (h : ∀ p ∈ l1, qualifies lp.len p.1 p.2 = false) :
    findSplit lp c rnd (l1 ++ l2) k = findSplit lp c rnd l2 k := by
  induction l1 with
  | nil => rfl
  | cons p rest ih =>
      obtain ⟨i, j⟩ := p
      have hq : qualifies lp.len i j = false := h (i, j) (List.mem_cons_self _ _)
      rw [List.cons_append]
      simp only [findSplit,
        if_neg (show ¬qualifies lp.len i j = true from by
          rw [hq]; exact Bool.false_ne_true)]
      exact ih fun p hp => h p (List.mem_cons_of_mem _ hp)

/-- The x-coordinates of the loop used to refute C5: point 19 sits next to
point 0 and point 20 next to point 1 on the x-axis; all other points are
far apart. -/
noncomputable def cfC5 : ℕ → ℝ := fun k =>
  if k = 19 then 1 / 2 else if k = 20 then 3 / 2 else if k ≤ 18 then (k : ℝ) else 0

/-- A 38-point loop on the x-axis with exactly two close qualifying pairs,
`(0,19)` and `(1,20)`. -/
noncomputable def ptsC5 : List Vec3 := (List.range 38).map fun k => (cfC5 k, 0, 0)

/-- The loop used to refute C5. -/
noncomputable def loopC5 : StringLoop := ⟨ptsC5, ptsC5, 5⟩

/-- Random stream for the C5 counterexample: the first draw (used at pair
`(0,19)`) fails against `prob = 0.3`, the second (used at pair `(1,20)`)
fires. -/
noncomputable def rndC5 : ℕ → ℝ := fun k => if k = 0 then 1 / 2 else 1 / 10

theorem findSplit_two_close (lp : StringLoop) (c : ℝ) (rnd : ℕ → ℝ)
    (l1 l2 l3 : List (ℕ × ℕ)) (i1 j1 i2 j2 k : ℕ)
    (h1 : ∀ p ∈ l1, qualifies lp.len p.1 p.2 = false)
    (h2 : ∀ p ∈ l2, qualifies lp.len p.1 p.2 = false)
    (hq1 : qualifies lp.len i1 j1 = true)
    (hd1 : dist3d (lp.positions.getD i1 v0) (lp.positions.getD j1 v0) < INTERSECTION_THRESHOLD)
    (hr1 : ¬rnd k < min (c * (3 / 10)) (4 / 5))
    (hq2 : qualifies lp.len i2 j2 = true)
    (hd2 : dist3d (lp.positions.getD i2 v0) (lp.positions.getD j2 v0) < INTERSECTION_THRESHOLD)
    (hr2 : rnd (k + 1) < min (c * (3 / 10)) (4 / 5)) :
    findSplit lp c rnd (l1 ++ ((i1, j1) :: (l2 ++ ((i2, j2) :: l3)))) k =
      (some (i2, j2), k + 2) := by
  rw [findSplit_skip_all lp c rnd l1 _ k h1]
  simp only [findSplit, if_pos hq1, if_pos hd1, if_neg hr1]
  rw [findSplit_skip_all lp c rnd l2 _ (k + 1) h2]
  simp only [findSplit, if_pos hq2, if_pos hd2, if_pos hr2]

set_option maxRecDepth 100000 in
/-- C5 counterexample: on `loopC5` with `coupling = 1`, the first
qualifying pair in ascending scan order is `(0,19)` and its distance is
below the threshold, so by the claim it is the unique split candidate;
its single draw does not fire (`1/2 ≥ 0.3`), so by the claim no split
occurs for this loop in this step.  The scan nevertheless goes on, draws
again at the later pair `(1,20)` and splits there, returning
`(some (1,20))` with two draws consumed. -/
theorem C5_counterexample :
    ((scanIdx 38).filter fun p => qualifies 38 p.1 p.2).head? = some (0, 19) ∧
    dist3d (loopC5.positions.getD 0 v0) (loopC5.positions.getD 19 v0) <
      INTERSECTION_THRESHOLD ∧
    ¬rndC5 0 < min ((1 : ℝ) * (3 / 10)) (4 / 5) ∧
    findSplit loopC5 1 rndC5 (scanIdx 38) 0 = (some (1, 20), 2) := by
  have hlen : loopC5.len = 38 := by
    simp [loopC5, StringLoop.len, ptsC5]
  have hc0 : cfC5 0 = 0 := by norm_num [cfC5]
  have hc1 : cfC5 1 = 1 := by norm_num [cfC5]
  have hc19 : cfC5 19 = 1 / 2 := by norm_num [cfC5]
  have hc20 : cfC5 20 = 3 / 2 := by norm_num [cfC5]
  have hget : ∀ k, k < 38 → loopC5.positions.getD k v0 = (cfC5 k, 0, 0) := by
    intro k hk
    show ptsC5.getD k v0 = (cfC5 k, 0, 0)
    rw [ptsC5, getD_map_range _ _ _ _ hk]
  have hd019 : dist3d (loopC5.positions.getD 0 v0) (loopC5.positions.getD 19 v0) <
      INTERSECTION_THRESHOLD := by
    rw [hget 0 (by norm_num), hget 19 (by norm_num), hc0, hc19, dist3d_xaxis,
      INTERSECTION_THRESHOLD, abs_lt]
    constructor <;> norm_num
  have hd120 : dist3d (loopC5.positions.getD 1 v0) (loopC5.positions.getD 20 v0) <
      INTERSECTION_THRESHOLD := by
    rw [hget 1 (by norm_num), hget 20 (by norm_num), hc1, hc20, dist3d_xaxis,
      INTERSECTION_THRESHOLD, abs_lt]
    constructor <;> norm_num
  have hmin : min ((1 : ℝ) * (3 / 10)) (4 / 5) = 3 / 10 := by
    rw [one_mul, min_eq_left (by norm_num)]
  have hr0 : ¬rndC5 0 < min ((1 : ℝ) * (3 / 10)) (4 / 5) := by
    rw [hmin, rndC5]
    norm_num
  have hr1 : rndC5 1 < min ((1 : ℝ) * (3 / 10)) (4 / 5) := by
    rw [hmin, rndC5]
    norm_num
  refine ⟨by decide, hd019, hr0, ?_⟩
  have hdec : scanIdx 38 = ((scanIdx 38).take 15 ++ ((0, 19) ::
      (((scanIdx 38).drop 16).take 33 ++ ((1, 20) :: (scanIdx 38).drop 50)))) := by decide
  rw [hdec]
  exact findSplit_two_close loopC5 1 rndC5 _ _ _ 0 19 1 20 0
    (by simp only [hlen]; decide) (by simp only [hlen]; decide)
    (by rw [hlen]; decide) hd019 hr0 (by rw [hlen]; decide) hd120 hr1

/-! ### C8: identity ids -/

/-- The ids of a list of loops, in order. -/
def loopIds (l : List StringLoop) : List ℕ := l.map (·.color_id)

theorem advanceLoop_color (coupling dt : ℝ) (lp : StringLoop) :
    (advanceLoop coupling dt lp).color_id = lp.color_id := rfl

theorem resample_color (lp : StringLoop) (t : ℕ) :
    (lp.resample t).color_id = lp.color_id := by
  rw [StringLoop.resample]
  split <;> rfl

theorem resampleLoop_color (lp : StringLoop) :
    (resampleLoop lp).color_id = lp.color_id := by
  rw [resampleLoop]
  split
  · exact resample_color lp _
  · rfl

theorem loopIds_map {l : List StringLoop} {f : StringLoop → StringLoop}
    (hf : ∀ lp, (f lp).color_id = lp.color_id) : loopIds (l.map f) = loopIds l := by
  rw [loopIds, loopIds, List.map_map]
  exact List.map_congr_left fun lp _ => hf lp

theorem splitLoop_colors (lp : StringLoop) (i j c1 c2 : ℕ) :
    (splitLoop lp i j c1 c2).1.color_id = c1 ∧ (splitLoop lp i j c1 c2).2.color_id = c2 :=
  ⟨rfl, rfl⟩

/-- Behavior of the intersection pass on ids: the kept loops' ids form a
sublist of the input ids, each split advances the id counter by exactly 2
(so `counter' + 2·|kept| = counter + 2·|input|`), the children's ids are
fresh (at least the entry counter, below the exit counter) and strictly
increasing in issuance order. -/
theorem processIntersections_ids (coupling : ℝ) (rnd : ℕ → ℝ) :
    ∀ (loops : List StringLoop) (cid k : ℕ),
      List.Sublist (loopIds (processIntersections coupling rnd loops cid k).1) (loopIds loops) ∧
      cid ≤ (processIntersections coupling rnd loops cid k).2.2.1 ∧
      (∀ id ∈ loopIds (processIntersections coupling rnd loops cid k).2.1,
        cid ≤ id ∧ id < (processIntersections coupling rnd loops cid k).2.2.1) ∧
      (loopIds (processIntersections coupling rnd loops cid k).2.1).Pairwise (· < ·) ∧
      (processIntersections coupling rnd loops cid k).2.2.1 +
        2 * (processIntersections coupling rnd loops cid k).1.length =
        cid + 2 * loops.length
  | [], cid, k => by
      simp [processIntersections, loopIds]
  | lp :: rest, cid, k => by
      rcases hfs : findSplit lp coupling rnd (scanIdx lp.len) k with ⟨res, k1⟩
      cases res with
      | none =>
          have ih := processIntersections_ids coupling rnd rest cid k1
          simp only [processIntersections, hfs]
          obtain ⟨ih1, ih2, ih3, ih4, ih5⟩ := ih
          refine ⟨?_, ih2, ih3, ih4, ?_⟩
          · exact List.Sublist.cons₂ _ ih1
          · simp only [List.length_cons]
            omega
      | some p =>
          obtain ⟨i, j⟩ := p
          have ih := processIntersections_ids coupling rnd rest (cid + 2) k1
          simp only [processIntersections, hfs]
          obtain ⟨ih1, ih2, ih3, ih4, ih5⟩ := ih
          have hc1 : (splitLoop lp i j cid (cid + 1)).1.color_id = cid := rfl
          have hc2 : (splitLoop lp i j cid (cid + 1)).2.color_id = cid + 1 := rfl
          have hchild : ∀ id ∈ loopIds
              ((if MIN_LOOP_POINTS ≤ (splitLoop lp i j cid (cid + 1)).1.len
                  then [(splitLoop lp i j cid (cid + 1)).1] else []) ++
               (if MIN_LOOP_POINTS ≤ (splitLoop lp i j cid (cid + 1)).2.len
                  then [(splitLoop lp i j cid (cid + 1)).2] else [])),
              id = cid ∨ id = cid + 1 := by
            intro id hid
            rw [loopIds, List.map_append, List.mem_append] at hid
            rcases hid with hmem | hmem
            · left
              split at hmem
              · simpa [hc1] using hmem
              · simp at hmem
            · right
              split at hmem
              · simpa [hc2] using hmem
              · simp at hmem
          have hchildSorted : (loopIds
              ((if MIN_LOOP_POINTS ≤ (splitLoop lp i j cid (cid + 1)).1.len
                  then [(splitLoop lp i j cid (cid + 1)).1] else []) ++
               (if MIN_LOOP_POINTS ≤ (splitLoop lp i j cid (cid + 1)).2.len
                  then [(splitLoop lp i j cid (cid + 1)).2] else []))).Pairwise (· < ·) := by
            rw [loopIds, List.map_append, List.pairwise_append]
            refine ⟨?_, ?_, ?_⟩
            · split
              · exact List.pairwise_singleton _ _
              · exact List.Pairwise.nil
            · split
              · exact List.pairwise_singleton _ _
              · exact List.Pairwise.nil
            · intro a ha b hb
              split at ha <;> split at hb <;>
                simp only [List.map_cons, List.map_nil, List.mem_singleton,
                  List.not_mem_nil] at ha hb
              rw [ha, hb, hc1, hc2]
              omega
          refine ⟨ih1.trans (List.sublist_cons_self _ _), by omega, ?_, ?_, ?_⟩
          · intro id hid
            rw [loopIds, List.map_append, List.mem_append] at hid
            rcases hid with hmem | hmem
            · rcases hchild id hmem with rfl | rfl
              · omega
              · omega
            · have := ih3 id hmem
              omega
          · rw [loopIds, List.map_append, List.pairwise_append]
            refine ⟨hchildSorted, ih4, ?_⟩
            · intro a ha b hb
              rcases hchild a ha with rfl | rfl <;> have := (ih3 b hb).1 <;> omega
          · simp only [List.length_cons]
            omega

/-- The id-tracking invariant: active ids are pairwise distinct and below
the counter. -/
def IdInv (s : StringSimulation) : Prop :=
  (loopIds s.loops).Nodup ∧ ∀ id ∈ loopIds s.loops, id < s.next_color_id

theorem step_unfold (s : StringSimulation) (dt : ℝ) (rnd : ℕ → ℝ) :
    s.step dt rnd =
      if (s.loops.map (advanceLoop s.coupling dt)).length < MAX_LOOPS then
        { loops := ((processIntersections s.coupling rnd
              (s.loops.map (advanceLoop s.coupling dt)) s.next_color_id 0).1 ++
            (processIntersections s.coupling rnd
              (s.loops.map (advanceLoop s.coupling dt)) s.next_color_id 0).2.1).map
            resampleLoop
          coupling := s.coupling
          next_color_id := (processIntersections s.coupling rnd
            (s.loops.map (advanceLoop s.coupling dt)) s.next_color_id 0).2.2.1 }
      else
        { loops := (s.loops.map (advanceLoop s.coupling dt)).map resampleLoop
          coupling := s.coupling
          next_color_id := s.next_color_id } := by
  by_cases h : (s.loops.map (advanceLoop s.coupling dt)).length < MAX_LOOPS
  · simp only [StringSimulation.step, if_pos h]
  · simp only [StringSimulation.step, if_neg h]

theorem step_IdInv (s : StringSimulation) (dt : ℝ) (rnd : ℕ → ℝ) (h : IdInv s) :
    IdInv (s.step dt rnd) ∧ s.next_color_id ≤ (s.step dt rnd).next_color_id := by
  obtain ⟨hnd, hlt⟩ := h
  have hadv : loopIds (s.loops.map (advanceLoop s.coupling dt)) = loopIds s.loops :=
    loopIds_map fun lp => advanceLoop_color s.coupling dt lp
  rw [step_unfold]
  by_cases hc : (s.loops.map (advanceLoop s.coupling dt)).length < MAX_LOOPS
  · rw [if_pos hc]
    obtain ⟨sub, hcid, hnew, hsorted, hcount⟩ := processIntersections_ids s.coupling rnd
      (s.loops.map (advanceLoop s.coupling dt)) s.next_color_id 0
    rw [hadv] at sub
    have hkeptlt : ∀ id ∈ loopIds (processIntersections s.coupling rnd
        (s.loops.map (advanceLoop s.coupling dt)) s.next_color_id 0).1,
        id < s.next_color_id := fun id hid => hlt id (sub.mem hid)
    constructor
    · constructor
      · rw [loopIds_map fun lp => resampleLoop_color lp, loopIds, List.map_append]
        apply List.Nodup.append
        · exact (sub.nodup hnd : _)
        · exact hsorted.imp fun hab => Nat.ne_of_lt hab
        · intro a ha hb
          have h1 := hkeptlt a ha
          have h2 := (hnew a hb).1
          omega
      · intro id hid
        rw [loopIds_map fun lp => resampleLoop_color lp, loopIds, List.map_append,
          List.mem_append] at hid
        rcases hid with hmem | hmem
        · have h1 := hkeptlt id hmem
          show id < (processIntersections s.coupling rnd
            (s.loops.map (advanceLoop s.coupling dt)) s.next_color_id 0).2.2.1
          omega
        · exact (hnew id hmem).2
    · exact hcid
  · rw [if_neg hc]
    constructor
    · constructor
      · rw [loopIds_map fun lp => resampleLoop_color lp, hadv]
        exact hnd
      · intro id hid
        rw [loopIds_map fun lp => resampleLoop_color lp, hadv] at hid
        exact hlt id hid
    · exact Nat.le_refl _

theorem runString_IdInv (events : List SEvent) :
    ∀ s : StringSimulation, IdInv s →
      IdInv (runString s events) ∧ s.next_color_id ≤ (runString s events).next_color_id := by
  induction events with
  | nil => exact fun s h => ⟨h, Nat.le_refl _⟩
  | cons e rest ih =>
      intro s h
      cases e with
      | step dt rnd =>
          obtain ⟨h1, h2⟩ := step_IdInv s dt rnd h
          obtain ⟨h3, h4⟩ := ih (s.step dt rnd) h1
          exact ⟨h3, le_trans h2 h4⟩
      | setCoupling c =>
          obtain ⟨h3, h4⟩ := ih (s.set_coupling c) h
          exact ⟨h3, h4⟩

theorem step_counter_mono (s : StringSimulation) (dt : ℝ) (rnd : ℕ → ℝ) :
    s.next_color_id ≤ (s.step dt rnd).next_color_id := by
  rw [step_unfold]
  by_cases hc : (s.loops.map (advanceLoop s.coupling dt)).length < MAX_LOOPS
  · rw [if_pos hc]
    exact (processIntersections_ids s.coupling rnd
      (s.loops.map (advanceLoop s.coupling dt)) s.next_color_id 0).2.1
  · rw [if_neg hc]

theorem runString_counter_mono (events : List SEvent) :
    ∀ s : StringSimulation, s.next_color_id ≤ (runString s events).next_color_id := by
  induction events with
  | nil => exact fun s => Nat.le_refl _
  | cons e rest ih =>
      intro s
      cases e with
      | step dt rnd => exact le_trans (step_counter_mono s dt rnd) (ih (s.step dt rnd))
      | setCoupling c => exact ih (s.set_coupling c)

/-- C8: the id counter starts at 2, the seed loops carry ids 0 and 1, the
active ids in every reachable state are pairwise distinct and below the
counter, the counter never decreases along any run, and the intersection
pass issues exactly two fresh ids per split (the counter advances by 2 per
removed parent, and every child id lies in the fresh window), so no id is
ever reused. -/
theorem C8_unique_ids (coupling : ℝ) (events : List SEvent) :
    (StringSimulation.new coupling).next_color_id = 2 ∧
    loopIds (StringSimulation.new coupling).loops = [0, 1] ∧
    (loopIds (runString (StringSimulation.new coupling) events).loops).Nodup ∧
    (∀ id ∈ loopIds (runString (StringSimulation.new coupling) events).loops,
      id < (runString (StringSimulation.new coupling) events).next_color_id) ∧
    (∀ (s : StringSimulation) (more : List SEvent),
      s.next_color_id ≤ (runString s more).next_color_id) ∧
    (∀ (c : ℝ) (rnd : ℕ → ℝ) (loops : List StringLoop) (cid k : ℕ),
      (processIntersections c rnd loops cid k).2.2.1 +
          2 * (processIntersections c rnd loops cid k).1.length =
        cid + 2 * loops.length ∧
      ∀ id ∈ loopIds (processIntersections c rnd loops cid k).2.1,
        cid ≤ id ∧ id < (processIntersections c rnd loops cid k).2.2.1) := by
  have hids : loopIds (StringSimulation.new coupling).loops = [0, 1] := rfl
  have hinv : IdInv (StringSimulation.new coupling) := by
    constructor
    · rw [hids]
      decide
    · intro id hid
      rw [hids] at hid
      simp only [List.mem_cons, List.mem_singleton, List.not_mem_nil, or_false] at hid
      show id < 2
      omega
  obtain ⟨⟨hn, hb⟩, _⟩ := runString_IdInv events _ hinv
  refine ⟨rfl, hids, hn, hb, fun s more => runString_counter_mono more s, ?_⟩
  intro c rnd loops cid k
  obtain ⟨_, _, hnew, _, hcount⟩ := processIntersections_ids c rnd loops cid k
  exact ⟨hcount, hnew⟩

theorem C8_unique_ids_witness :
    (0 ∈ loopIds (runString (StringSimulation.new 1) []).loops) ∧
    0 < (runString (StringSimulation.new 1) []).next_color_id :=
  ⟨by decide, ((C8_unique_ids 1 []).2.2.2.1 0 (by decide))⟩

end StringClaims

end StringVerse
